import Mathlib

/-!
Verification of `src/scripts/anilist.py` (class `AniListSVG`).

The script is a one-shot XML transformation: it extracts base64 `data:image/*`
URIs from a source SVG (`extract_uris_data`), selects a `<foreignObject>` in a
target SVG (`find_object`), builds an XHTML fragment (`build_anilist_section`)
and splices it in (`inject`).

We embed the XML data model shallowly: an element is a tag (the
`xml.etree.ElementTree` universal name `{namespace}localname`), an attribute
dictionary (a list of key/value pairs in insertion order; XML attributes are
unique per element) and a list of children.  Nodes of a document are addressed
by their path of child indices from the root, so "document order" is the
lexicographic order on paths (preorder traversal order), and the ElementTree
queries used by the script are modelled as functions returning `(path,
element)` pairs in exactly the order ElementTree's generators produce them.
The path component is ghost instrumentation: the script itself only ever looks
at the element component.
-/

inductive Elem where
  | mk (tag : String) (attrs : List (String × String)) (children : List Elem)

mutual
def decEqElem : (a b : Elem) → Decidable (a = b)
  | .mk t1 a1 c1, .mk t2 a2 c2 =>
    match String.decEq t1 t2 with
    | isFalse h => isFalse (fun heq => by cases heq; exact h rfl)
    | isTrue h1 =>
      match (inferInstance : DecidableEq (List (String × String))) a1 a2 with
      | isFalse h => isFalse (fun heq => by cases heq; exact h rfl)
      | isTrue h2 =>
        match decEqKids c1 c2 with
        | isFalse h => isFalse (fun heq => by cases heq; exact h rfl)
        | isTrue h3 => isTrue (by rw [h1, h2, h3])

def decEqKids : (xs ys : List Elem) → Decidable (xs = ys)
  | [], [] => isTrue rfl
  | [], _ :: _ => isFalse (fun h => nomatch h)
  | _ :: _, [] => isFalse (fun h => nomatch h)
  | x :: xs, y :: ys =>
    match decEqElem x y with
    | isFalse h => isFalse (fun heq => by cases heq; exact h rfl)
    | isTrue h1 =>
      match decEqKids xs ys with
      | isFalse h => isFalse (fun heq => by cases heq; exact h rfl)
      | isTrue h2 => isTrue (by rw [h1, h2])
end

instance : DecidableEq Elem := decEqElem

instance {ε α : Type} [DecidableEq ε] [DecidableEq α] : DecidableEq (Except ε α) :=
  fun a b =>
    match a, b with
    | .ok x, .ok y =>
      match decEq x y with
      | isTrue h => isTrue (by rw [h])
      | isFalse h => isFalse (fun heq => by cases heq; exact h rfl)
    | .error x, .error y =>
      match decEq x y with
      | isTrue h => isTrue (by rw [h])
      | isFalse h => isFalse (fun heq => by cases heq; exact h rfl)
    | .ok _, .error _ => isFalse (fun h => nomatch h)
    | .error _, .ok _ => isFalse (fun h => nomatch h)

def Elem.tag : Elem → String
  | .mk t _ _ => t

def Elem.attrs : Elem → List (String × String)
  | .mk _ a _ => a

def Elem.children : Elem → List Elem
  | .mk _ _ cs => cs

/-- `element.get(key)`: attribute lookup (`None` when absent). -/
def Elem.get (e : Elem) (k : String) : Option String :=
  (e.attrs.find? (fun a => a.1 == k)).map (fun a => a.2)

/-! Namespace and tag constants (class `Namespace` / class `Tag` of the
script).  ElementTree's universal names are `{uri}local`; the brace characters
are written with `\x7b`/`\x7d` escapes. -/

def svgNS : String := "http://www.w3.org/2000/svg"

def xhtmlNS : String := "http://www.w3.org/1999/xhtml"

def xlinkNS : String := "http://www.w3.org/1999/xlink"

def divTag : String := "\x7b" ++ xhtmlNS ++ "\x7d" ++ "div"

def imgTag : String := "\x7b" ++ xhtmlNS ++ "\x7d" ++ "img"

def sectionTag : String := "\x7b" ++ xhtmlNS ++ "\x7d" ++ "section"

def svgImageTag : String := "\x7b" ++ svgNS ++ "\x7d" ++ "image"

def foTag : String := "\x7b" ++ svgNS ++ "\x7d" ++ "foreignObject"

def xlinkHrefAttr : String := "\x7b" ++ xlinkNS ++ "\x7d" ++ "href"

/-! ### Tree addressing

`descendants e` enumerates every proper descendant of `e` with its path of
child indices, in preorder (document) order: this is the order in which
`Element.iter` visits nodes, hence the order of ElementTree `.//` query
results.  `subtreeAt` reads the subtree at a path; `replaceAt` replaces it. -/

mutual
def descendants : Elem → List (List Nat × Elem)
  | .mk _ _ cs => descList cs 0

def descList : List Elem → Nat → List (List Nat × Elem)
  | [], _ => []
  | c :: cs, i =>
    (([i], c) :: (descendants c).map (fun pe => (i :: pe.1, pe.2))) ++ descList cs (i + 1)
end

mutual
def subtreeAt : Elem → List Nat → Option Elem
  | e, [] => some e
  | .mk _ _ cs, i :: rest => subtreeInKids cs i rest

def subtreeInKids : List Elem → Nat → List Nat → Option Elem
  | [], _, _ => none
  | c :: _, 0, rest => subtreeAt c rest
  | _ :: cs, i + 1, rest => subtreeInKids cs i rest
end

mutual
def replaceAt : Elem → List Nat → Elem → Elem
  | _, [], n => n
  | .mk t a cs, i :: rest, n => .mk t a (replaceInKids cs i rest n)

def replaceInKids : List Elem → Nat → List Nat → Elem → List Elem
  | [], _, _, _ => []
  | c :: cs, 0, rest, n => replaceAt c rest n :: cs
  | c :: cs, i + 1, rest, n => c :: replaceInKids cs i rest n
end

/-- Document order on paths: lexicographic, with an ancestor before its
descendants (preorder). -/
def pathLt : List Nat → List Nat → Bool
  | [], [] => false
  | [], _ :: _ => true
  | _ :: _, [] => false
  | a :: as, b :: bs => a < b || (a == b && pathLt as bs)

/-- `startsWithPath p q`: `q` lies in the subtree rooted at the node with path
`p` (i.e. `p` is an initial segment of `q`). -/
def startsWithPath : List Nat → List Nat → Bool
  | [], _ => true
  | _ :: _, [] => false
  | a :: as, b :: bs => a == b && startsWithPath as bs

/-! ### The queries used by the script -/

/-- Matcher for the ElementPath step `xhtml:div[@class='anilist']`. -/
def isAnilistDiv (e : Elem) : Bool :=
  e.tag == divTag && e.get "class" == some "anilist"

/-- Matcher for the ElementPath step `xhtml:div[@class='characters']`. -/
def isCharactersDiv (e : Elem) : Bool :=
  e.tag == divTag && e.get "class" == some "characters"

/-- `root.findall(".//xhtml:div[@class='anilist']", NSMAP)`:
all proper descendants matching the tag/class test, in document order. -/
def anilistContainers (root : Elem) : List (List Nat × Elem) :=
  (descendants root).filter (fun pe => isAnilistDiv pe.2)

/-- Children of an element together with their indices (Python enumeration
order). -/
def childEntriesAux : List Elem → Nat → List (Nat × Elem)
  | [], _ => []
  | c :: cs, i => (i, c) :: childEntriesAux cs (i + 1)

def childEntries (e : Elem) : List (Nat × Elem) :=
  childEntriesAux e.children 0

/-- Tier 1 (line 82): `root.findall(".//xhtml:div[@class='anilist']/xhtml:div
[@class='characters']/xhtml:img", NSMAP)` — for each anilist `div` descendant
(document order), its `characters`-`div` children, and their `img` children. -/
def strictCandidates (root : Elem) : List (List Nat × Elem) :=
  (anilistContainers root).flatMap (fun pe =>
    ((childEntries pe.2).filter (fun ic => isCharactersDiv ic.2)).flatMap (fun ic =>
      ((childEntries ic.2).filter (fun jc => jc.2.tag == imgTag)).map (fun jc =>
        (pe.1 ++ [ic.1, jc.1], jc.2))))

/-- Tier 2 (line 89): `root.findall(".//xhtml:div[@class='anilist']//xhtml:img",
NSMAP)` — for each anilist `div` descendant, every `img` proper descendant of
it.  ElementTree does not deduplicate: an `img` below two nested anilist divs
is listed once per container. -/
def relaxedCandidates (root : Elem) : List (List Nat × Elem) :=
  (anilistContainers root).flatMap (fun pe =>
    ((descendants pe.2).filter (fun qe => qe.2.tag == imgTag)).map (fun qe =>
      (pe.1 ++ qe.1, qe.2)))

/-- Line 88: `candidates` is the strict list, replaced by the relaxed list
when the strict one is empty. -/
def candidatesTier12 (root : Elem) : List (List Nat × Elem) :=
  if (strictCandidates root).isEmpty then relaxedCandidates root else strictCandidates root

/-- Line 112: `root.findall(".//svg:image", NSMAP)`. -/
def svgImages (root : Elem) : List (List Nat × Elem) :=
  (descendants root).filter (fun pe => pe.2.tag == svgImageTag)

/-- Line 142: `root.findall(".//svg:foreignObject", NSMAP)`. -/
def foreignObjects (root : Elem) : List (List Nat × Elem) :=
  (descendants root).filter (fun pe => pe.2.tag == foTag)

/-- Lines 147-148: `element.find(".//xhtml:div[@class='anilist']", NSMAP) is
not None`. -/
def hasAnilist (e : Elem) : Bool :=
  (descendants e).any (fun pe => isAnilistDiv pe.2)

/-! ### The data-URI test (`is_data_uri`, lines 77-79)

`re.compile(r"^data:image/[^;]+;base64,[A-Za-z0-9+/=\s]+$")` matched against
`uri.strip()`.  Since `[^;]+` cannot cross a `;`, the pattern is equivalent
to: literal `data:image/`, a nonempty run of non-`;` characters up to the
first `;`, literal `;base64,`, then a nonempty string of base64-alphabet or
whitespace characters.  Whitespace is modelled as the six ASCII whitespace
characters of Python's `\s`/`str.strip` (the claims never involve the
additional Unicode whitespace Python would also accept). -/

def pyIsSpace (c : Char) : Bool :=
  c = ' ' || c = '\t' || c = '\n' || c = '\x0d' || c = '\x0c' || c = '\x0b'

/-- Python `str.strip()`: drop leading and trailing whitespace. -/
def pyStrip (s : String) : String :=
  (((s.toList.dropWhile pyIsSpace).reverse.dropWhile pyIsSpace).reverse).asString

/-- The character class `[A-Za-z0-9+/=\s]`. -/
def base64Char (c : Char) : Bool :=
  c.isAlpha || c.isDigit || c = '+' || c = '/' || c = '=' || pyIsSpace c

/-- Strip a literal off the front of a character list. -/
def stripLead : List Char → List Char → Option (List Char)
  | [], rest => some rest
  | _ :: _, [] => none
  | p :: ps, c :: cs => if c = p then stripLead ps cs else none

/-- Full match of the compiled pattern against an (already stripped) string. -/
def matchDataUri (s : String) : Bool :=
  match stripLead "data:image/".toList s.toList with
  | none => false
  | some rest =>
    let sub := rest.takeWhile (fun c => c ≠ ';')
    match stripLead ";base64,".toList (rest.dropWhile (fun c => c ≠ ';')) with
    | none => false
    | some payload => !sub.isEmpty && !payload.isEmpty && payload.all base64Char

/-- `is_data_uri(uri)`: `bool(pattern.match(uri.strip())) if uri else False`.
`None` and the empty string are falsy. -/
def is_data_uri : Option String → Bool
  | none => false
  | some u => if u = "" then false else matchDataUri (pyStrip u)

/-- Python `a or b` on two optional strings: `b` when `a` is `None` or empty. -/
def pyOr : Option String → Option String → Option String
  | none, b => b
  | some s, b => if s = "" then b else some s

/-! ### The extraction loops (`extract_uris_data`, lines 65-133) -/

/-- `if max_images and len(data_uris) >= max_images`: `None` and `0` are
falsy.  `max_images` is an `int` from the command line, so it is modelled as
an `Int` (it may be negative, in which case the test is immediately true). -/
def capReached : Option Int → Nat → Bool
  | none, _ => false
  | some k, n => k ≠ 0 && (n : Int) ≥ k

/-- One iteration of either extraction loop body, minus the cap check:
accept `uri.strip()` when `is_data_uri(uri)`, else warn when `uri` is truthy,
else do nothing. -/
def stepCand (getVal : Elem → Option String) (mkMsg : String → String)
    (pe : List Nat × Elem) (uris : List (List Nat × String)) (warns : List String) :
    List (List Nat × String) × List String :=
  match getVal pe.2 with
  | none => (uris, warns)
  | some u =>
    if u = "" then (uris, warns)
    else if matchDataUri (pyStrip u) then (uris ++ [(pe.1, pyStrip u)], warns)
    else (uris, warns ++ [mkMsg u])

/-- The common shape of the two extraction loops: process candidates in order,
stopping (with flag `true`) as soon as the cap check fires after a candidate.
In the tier-1/2 loop the stop is a `return`, in the fallback loop a `break`. -/
def procLoop (getVal : Elem → Option String) (mkMsg : String → String) (m : Option Int) :
    List (List Nat × Elem) → List (List Nat × String) → List String →
    List (List Nat × String) × List String × Bool
  | [], uris, warns => (uris, warns, false)
  | pe :: rest, uris, warns =>
    let s := stepCand getVal mkMsg pe uris warns
    if capReached m s.1.length then (s.1, s.2, true)
    else procLoop getVal mkMsg m rest s.1 s.2

/-- Line 103: the tier-1/2 warning text, with the value clipped to 60
characters. -/
def warnMsg12 (u : String) : String :=
  "Non-data URI ignored (expected base64 data:image/*) " ++ u.take 60 ++ "…"

/-- Line 121: the fallback-tier warning text. -/
def warnMsgSvg (u : String) : String :=
  "Non-data URI in <image> ignored: " ++ u.take 60 ++ "…"

/-- Line 97: `element.get("src")`. -/
def getSrcAttr (e : Elem) : Option String :=
  e.get "src"

/-- Line 115: `element.get(xlink href) or element.get("href")`. -/
def getHrefAttr (e : Elem) : Option String :=
  pyOr (e.get xlinkHrefAttr) (e.get "href")

/-- Line 127: the fatal `err` message when nothing was accepted. -/
def noDataUrisMsg : String :=
  "No base64 data URIs found in source SVG. " ++
  "Expected <img src=\"data:image/...;base64,...\"> under .anilist/.characters, " ++
  "or <image href=\"data:image/...\">."

/-- `extract_uris_data(root, max_images)`, with each accepted URI paired with
the path of the candidate element it was read from, plus the list of warning
messages printed.  `Except.error` models the fatal `self.err(...)` exit.
Control flow of the source: a cap-triggered `return` inside the tier-1/2 loop
skips both the fallback tier and the final emptiness check; the fallback tier
runs only when the tier-1/2 loop finished with an empty accepted list. -/
def extract_uris_data (root : Elem) (maxImages : Option Int) :
    Except String (List (List Nat × String)) × List String :=
  match procLoop getSrcAttr warnMsg12 maxImages (candidatesTier12 root) [] [] with
  | (uris, warns, true) => (.ok uris, warns)
  | (uris, warns, false) =>
    if uris.isEmpty then
      match procLoop getHrefAttr warnMsgSvg maxImages (svgImages root) [] warns with
      | (uris2, warns2, _) =>
        if uris2.isEmpty then (.error noDataUrisMsg, warns2) else (.ok uris2, warns2)
    else (.ok uris, warns)

/-- The string-level result of `extract_uris_data` (the paths erased): this is
the value the Python function actually returns. -/
def extractURIs (root : Elem) (maxImages : Option Int) :
    Except String (List String) × List String :=
  ((extract_uris_data root maxImages).1.map (fun l => l.map (fun pu => pu.2)),
   (extract_uris_data root maxImages).2)

/-! ### Selection (`find_object`, lines 135-163) -/

/-- Lines 160-161: `for child in target: target.remove(child)`.  The list
iterator advances an index while each `remove` shifts the remaining children
one slot left, so the loop visits (and removes) only every other child.  We
model the iteration faithfully: at step `i` the iterator yields `children[i]`
of the *current* list (stopping when `i` is out of range), and `remove`
deletes that very element (ElementTree elements compare by identity).  The
fuel argument only bounds the number of steps; `length + 1` steps always
suffice because the index grows and the list shrinks at every step. -/
def removeAllLoop : Nat → List Elem → Nat → List Elem
  | 0, cs, _ => cs
  | fuel + 1, cs, i => if i < cs.length then removeAllLoop fuel (cs.eraseIdx i) (i + 1) else cs

def clearChildrenPy (cs : List Elem) : List Elem :=
  removeAllLoop (cs.length + 1) cs 0

/-- `find_object(root, merge)`: select a `foreignObject` (returned with its
path), clearing the children of the selected one when `merge` is false. -/
def find_object (root : Elem) (merge : Bool) : Except String (List Nat × Elem) :=
  match foreignObjects root with
  | [] => .error "No <foreignObject> elements found in target SVG."
  | f :: fs =>
    let fos := f :: fs
    let aniFos := fos.filter (fun pe => hasAnilist pe.2)
    let otherFos := fos.filter (fun pe => !hasAnilist pe.2)
    if merge then .ok (aniFos.headD f)
    else
      let t := otherFos.headD f
      .ok (t.1, .mk t.2.tag t.2.attrs (clearChildrenPy t.2.children))

/-! ### Fragment construction (`build_anilist_section`, lines 165-189) -/

def mkImgElem (uri : String) (width height : Int) : Elem :=
  .mk imgTag
    [("src", uri), ("width", toString width), ("height", toString height),
     ("alt", "character")] []

def build_anilist_section (images : List String) (width height : Int) : List Elem :=
  let metrics : Elem := .mk divTag [("id", "metrics-end")] []
  let characters : Elem := .mk divTag [("class", "characters")]
    (images.map (fun uri => mkImgElem uri width height))
  let anilist : Elem := .mk divTag [("class", "anilist")] [characters]
  let innerSection : Elem := .mk sectionTag [] [anilist]
  let row : Elem := .mk divTag [("class", "row fill-width")] [innerSection]
  let outerSection : Elem := .mk sectionTag [] [row]
  let items : Elem := .mk divTag [("class", "items-wrapper")] [outerSection]
  [items, metrics]

/-! ### Injection (`inject`, lines 191-222; the tree transformation only —
parsing and serialisation are file I/O outside the embedded fragment) -/

/-- `element.set(key, value)`: dictionary update, keeping the position of an
existing key and appending a fresh one. -/
def setAttr (attrs : List (String × String)) (k v : String) : List (String × String) :=
  if attrs.any (fun a => a.1 == k) then
    attrs.map (fun a => if a.1 == k then (k, v) else a)
  else attrs ++ [(k, v)]

/-- Lines 209-212: force the geometry of the selected `foreignObject`. -/
def setGeometry (attrs : List (String × String)) : List (String × String) :=
  setAttr (setAttr (setAttr (setAttr attrs "x" "0") "y" "0") "width" "100%") "height" "100%"

/-- The mutation `inject` applies to the element `find_object` returned:
set the four geometry attributes, then append the two built elements. -/
def injectIntoFo (fo : Elem) (uris : List String) (width height : Int) : Elem :=
  .mk fo.tag (setGeometry fo.attrs) (fo.children ++ build_anilist_section uris width height)

/-- The in-memory tree transformation of `inject` on an already-parsed target:
select a `foreignObject` via `find_object` (which already clears children when
`merge` is false), mutate it in place, and return the resulting document. -/
def inject_tree (root : Elem) (uris : List String) (width height : Int) (merge : Bool) :
    Except String Elem :=
  match find_object root merge with
  | .error e => .error e
  | .ok (p, fo) => .ok (replaceAt root p (injectIntoFo fo uris width height))

/-! ### Concrete documents used as inputs for evaluation theorems -/

def svgTag : String := "\x7b" ++ svgNS ++ "\x7d" ++ "svg"

def uriA : String := "data:image/png;base64,AAAA"

def uriB : String := "data:image/png;base64,BBBB"

def imgOf (u : String) : Elem := .mk imgTag [("src", u)] []

/-- A target whose only `foreignObject` has two children. -/
def tgtTwoChildren : Elem :=
  .mk svgTag []
    [.mk foTag [] [.mk divTag [("id", "a")] [], .mk divTag [("id", "b")] []]]

/-- A source whose `characters` div sits one wrapper deeper than the strict
query expects, next to a `characters` div holding an `img` without `src`. -/
def docDeepChars : Elem :=
  .mk svgTag []
    [.mk divTag [("class", "anilist")]
      [.mk divTag [("class", "wrapper")]
        [.mk divTag [("class", "characters")] [imgOf uriA]],
       .mk divTag [("class", "characters")] [.mk imgTag [] []]]]

/-- A source with one anilist container nested inside another: the nested
container (holding `uriB`) precedes the outer container's own `characters`
child (holding `uriA`) in document order. -/
def docNestedAnilist : Elem :=
  .mk svgTag []
    [.mk divTag [("class", "anilist")]
      [.mk divTag [("class", "anilist")]
        [.mk divTag [("class", "characters")] [imgOf uriB]],
       .mk divTag [("class", "characters")] [imgOf uriA]]]

/-! ### C1 — `find_object(root, merge=False)` and child clearing.

The docstring of `find_object` (line 139) and the comment at line 159 say the
selected element's children are all removed, but the loop at lines 160-161
removes while iterating and therefore skips every other child: with two
children, the second one survives. -/

/-- C1: at a target whose single `foreignObject` has two children, the element
returned by `find_object(root, merge=False)` still has one child (the second
one) — not zero as the specification (and the function's own docstring)
state. -/
theorem find_object_clear_bug :
    find_object tgtTwoChildren false =
      .ok ([0], Elem.mk foTag [] [Elem.mk divTag [("id", "b")] []]) ∧
    (Elem.mk foTag [] [Elem.mk divTag [("id", "b")] []]).children.length = 1 := by
  decide

/-! ### C2 — the strict tier, compared with the claim's description -/

/-- Does the element at path `q` of `root` carry `class` equal to `c`? -/
def hasClassAt (root : Elem) (q : List Nat) (c : String) : Bool :=
  match subtreeAt root q with
  | some e => e.get "class" == some c
  | none => false

/-- The candidate set described by the claim's words (for refinement
comparison with `strictCandidates`): XHTML `img` elements that are children of
an element with class `characters` which is itself nested at any depth inside
an element with class `anilist`, and which carry a `src` attribute, in
document order. -/
def strictClaimCandidates (root : Elem) : List (List Nat × Elem) :=
  (descendants root).filter (fun pe =>
    pe.2.tag == imgTag && (pe.2.get "src").isSome &&
    hasClassAt root pe.1.dropLast "characters" &&
    (pe.1.dropLast.inits.dropLast).any (fun q => hasClassAt root q "anilist"))

/-- C2 counterexample: in `docDeepChars` the strict tier of the code misses
the `img` (with `src`) whose `characters` parent is nested one level deeper
than a direct child of the anilist div, and instead collects exactly the
`src`-less `img` of the direct `characters` child — on both counts the code's
strict tier differs from the claimed candidate set. -/
theorem strict_tier_cex :
    strictCandidates docDeepChars = [([0, 1, 0], Elem.mk imgTag [] [])] ∧
    strictClaimCandidates docDeepChars = [([0, 0, 0, 0], imgOf uriA)] ∧
    strictCandidates docDeepChars ≠ strictClaimCandidates docDeepChars := by
  decide

/-! ### C5 — document order of the extracted URIs -/

/-- C5 counterexample: in `docNestedAnilist` the `img` holding `uriB` (path
`[0,0,0,0]`) precedes the `img` holding `uriA` (path `[0,1,0]`) in document
order, both are accepted, yet `extractURIs` returns `uriA` before `uriB`:
the strict tier groups candidates by anilist container, and the outer
container's own `characters` child is scanned before the nested container. -/
theorem doc_order_cex :
    extractURIs docNestedAnilist none = (.ok [uriA, uriB], []) ∧
    extract_uris_data docNestedAnilist none =
      (.ok [([0, 1, 0], uriA), ([0, 0, 0, 0], uriB)], []) ∧
    pathLt [0, 0, 0, 0] [0, 1, 0] = true ∧
    uriA ≠ uriB := by
  decide

/-! ### Membership and order of `descendants` -/

/-- Membership in `descList cs i`: paths are a child index (offset by `i`)
followed by a path inside that child. -/
theorem mem_descList : ∀ (cs : List Elem) (i : Nat), ∀ p x,
    ((p, x) ∈ descList cs i ↔ ∃ j t, p = (i + j) :: t ∧ subtreeInKids cs j t = some x) := by
  refine descList.induct
    (fun e => ∀ p x, ((p, x) ∈ descendants e ↔ p ≠ [] ∧ subtreeAt e p = some x))
    (fun cs i => ∀ p x,
      ((p, x) ∈ descList cs i ↔ ∃ j t, p = (i + j) :: t ∧ subtreeInKids cs j t = some x))
    ?_ ?_ ?_
  · intro t a cs ih p x
    show (p, x) ∈ descList cs 0 ↔ _
    rw [ih p x]
    constructor
    · rintro ⟨j, tl, rfl, hsub⟩
      exact ⟨by simp, by simpa [subtreeAt] using hsub⟩
    · rintro ⟨hne, hsub⟩
      match p, hne with
      | j :: tl, _ => exact ⟨j, tl, by simp, by simpa [subtreeAt] using hsub⟩
  · intro i p x
    simp [descList, subtreeInKids]
  · intro c cs i ih1 ih2 p x
    show (p, x) ∈ (([i], c) :: (descendants c).map (fun pe => (i :: pe.1, pe.2)))
        ++ descList cs (i + 1) ↔ _
    simp only [List.mem_append, List.mem_cons, List.mem_map]
    constructor
    · rintro ((heq | ⟨⟨q, y⟩, hq, heq⟩) | htail)
      · cases heq
        exact ⟨0, [], by simp, by simp [subtreeInKids, subtreeAt]⟩
      · obtain ⟨-, hsub⟩ := (ih1 q y).1 hq
        cases heq
        exact ⟨0, q, by simp, by simpa [subtreeInKids] using hsub⟩
      · obtain ⟨j, tl, rfl, hsub⟩ := (ih2 p x).1 htail
        exact ⟨j + 1, tl, by ring_nf, by simpa [subtreeInKids] using hsub⟩
    · rintro ⟨j, tl, rfl, hsub⟩
      match j with
      | 0 =>
        rw [show subtreeInKids (c :: cs) 0 tl = subtreeAt c tl from rfl] at hsub
        match tl with
        | [] =>
          left; left
          simp only [subtreeAt] at hsub
          cases hsub
          rfl
        | s :: tl' =>
          left; right
          exact ⟨(s :: tl', x), (ih1 _ x).2 ⟨by simp, hsub⟩, by simp⟩
      | j + 1 =>
        right
        rw [show subtreeInKids (c :: cs) (j + 1) tl = subtreeInKids cs j tl from rfl] at hsub
        exact (ih2 _ x).2 ⟨j, tl, by ring_nf, hsub⟩

/-- Membership in `descendants`: exactly the nonempty valid paths. -/
theorem mem_descendants (e : Elem) (p : List Nat) (x : Elem) :
    (p, x) ∈ descendants e ↔ p ≠ [] ∧ subtreeAt e p = some x := by
  match e with
  | .mk t a cs =>
    show (p, x) ∈ descList cs 0 ↔ _
    rw [mem_descList cs 0 p x]
    constructor
    · rintro ⟨j, tl, rfl, hsub⟩
      exact ⟨by simp, by simpa [subtreeAt] using hsub⟩
    · rintro ⟨hne, hsub⟩
      match p, hne with
      | j :: tl, _ => exact ⟨j, tl, by simp, by simpa [subtreeAt] using hsub⟩

/-- The document-order relation on `(path, element)` pairs. -/
def docBefore (a b : List Nat × Elem) : Prop :=
  pathLt a.1 b.1 = true

theorem pathLt_cons_same (i : Nat) (p q : List Nat) :
    pathLt (i :: p) (i :: q) = pathLt p q := by
  simp [pathLt]

theorem pathLt_cons_of_lt {i j : Nat} (h : i < j) (p q : List Nat) :
    pathLt (i :: p) (j :: q) = true := by
  simp [pathLt, h]

theorem pathLt_nil_cons (j : Nat) (t : List Nat) : pathLt [] (j :: t) = true := rfl

/-- `descList cs i` paths all start with an index in `[i, i + length)`, and
the enumeration is strictly increasing in document order. -/
theorem descList_sorted : ∀ (cs : List Elem) (i : Nat),
    (∀ pe ∈ descList cs i, ∃ j t, pe.1 = j :: t ∧ i ≤ j ∧ j < i + cs.length) ∧
      (descList cs i).Pairwise docBefore := by
  refine descList.induct
    (fun e => (∀ pe ∈ descendants e, pe.1 ≠ []) ∧ (descendants e).Pairwise docBefore)
    (fun cs i =>
      (∀ pe ∈ descList cs i, ∃ j t, pe.1 = j :: t ∧ i ≤ j ∧ j < i + cs.length) ∧
        (descList cs i).Pairwise docBefore)
    ?_ ?_ ?_
  · intro t a cs ih
    refine ⟨fun pe hpe => ?_, ih.2⟩
    obtain ⟨j, tl, hj, -, -⟩ := ih.1 pe hpe
    simp [hj]
  · intro i
    simp [descList]
  · intro c cs i ih1 ih2
    constructor
    · intro pe hpe
      simp only [descList, List.mem_append, List.mem_cons, List.mem_map] at hpe
      rcases hpe with (heq | ⟨⟨q, y⟩, hq, heq⟩) | htail
      · subst heq
        exact ⟨i, [], rfl, le_refl i, by simp⟩
      · cases heq
        exact ⟨i, q, rfl, le_refl i, by simp⟩
      · obtain ⟨j, tl, hj, hij, hlt⟩ := ih2.1 _ htail
        exact ⟨j, tl, hj, by omega, by simp at hlt ⊢; omega⟩
    · show ((([i], c) :: (descendants c).map (fun pe => (i :: pe.1, pe.2)))
          ++ descList cs (i + 1)).Pairwise docBefore
      rw [List.pairwise_append]
      refine ⟨?_, ih2.2, ?_⟩
      · rw [List.pairwise_cons]
        constructor
        · rintro ⟨p', y⟩ hp'
          simp only [List.mem_map] at hp'
          obtain ⟨⟨q, z⟩, hq, heq⟩ := hp'
          cases heq
          have hqne := ih1.1 _ hq
          show pathLt [i] (i :: q) = true
          match q, hqne with
          | s :: q', _ => simp [pathLt]
        · rw [List.pairwise_map]
          refine ih1.2.imp ?_
          rintro ⟨p1, y1⟩ ⟨p2, y2⟩ h12
          show pathLt (i :: p1) (i :: p2) = true
          rw [pathLt_cons_same]
          exact h12
      · rintro ⟨p1, y1⟩ h1 ⟨p2, y2⟩ h2
        obtain ⟨j, tl, hj, hij, -⟩ := ih2.1 _ h2
        simp only [List.mem_cons, List.mem_map] at h1
        rcases h1 with heq | ⟨⟨q, z⟩, hq, heq⟩
        · cases heq
          show pathLt [i] p2 = true
          simp only at hj
          rw [hj]
          exact pathLt_cons_of_lt (by omega) _ _
        · cases heq
          show pathLt (i :: q) p2 = true
          simp only at hj
          rw [hj]
          exact pathLt_cons_of_lt (by omega) _ _

/-- `descendants` lists the proper descendants in strictly increasing document
order. -/
theorem descendants_sorted (e : Elem) : (descendants e).Pairwise docBefore := by
  match e with
  | .mk t a cs => exact (descList_sorted cs 0).2

/-! ### Properties of `pyStrip` and `matchDataUri` -/

theorem dropWhile_head_false (p : Char → Bool) :
    ∀ (l : List Char) (a : Char) (r : List Char), l.dropWhile p = a :: r → p a = false := by
  intro l
  induction l with
  | nil => intro a r h; cases h
  | cons x xs ih =>
    intro a r h
    by_cases hx : p x
    · rw [List.dropWhile_cons_of_pos hx] at h
      exact ih a r h
    · rw [List.dropWhile_cons_of_neg hx] at h
      cases h
      exact Bool.of_not_eq_true hx

theorem dropWhile_idem (p : Char → Bool) (l : List Char) :
    (l.dropWhile p).dropWhile p = l.dropWhile p := by
  match h : l.dropWhile p with
  | [] => rfl
  | a :: r => rw [List.dropWhile_cons_of_neg (by rw [dropWhile_head_false p l a r h]; simp)]

theorem dropWhile_is_suffix (p : Char → Bool) :
    ∀ (l : List Char), ∃ t, l = t ++ l.dropWhile p := by
  intro l
  induction l with
  | nil => exact ⟨[], rfl⟩
  | cons x xs ih =>
    by_cases hx : p x
    · obtain ⟨t, ht⟩ := ih
      exact ⟨x :: t, by rw [List.dropWhile_cons_of_pos hx]; simpa using ht⟩
    · exact ⟨[], by rw [List.dropWhile_cons_of_neg hx]; rfl⟩

/-- The trimmed character list of `pyStrip`. -/
def trimChars (l : List Char) : List Char :=
  ((l.dropWhile pyIsSpace).reverse.dropWhile pyIsSpace).reverse

theorem pyStrip_toList (s : String) : (pyStrip s).toList = trimChars s.toList := rfl

theorem trimChars_idem (l : List Char) : trimChars (trimChars l) = trimChars l := by
  have h1 : (trimChars l).dropWhile pyIsSpace = trimChars l := by
    match hfl : trimChars l with
    | [] => rfl
    | a :: u =>
      have ha : pyIsSpace a = false := by
        obtain ⟨t, ht⟩ :=
          dropWhile_is_suffix pyIsSpace (l.dropWhile pyIsSpace).reverse
        have hD : l.dropWhile pyIsSpace = trimChars l ++ t.reverse := by
          have := congrArg List.reverse ht
          simpa [trimChars, List.reverse_append] using this
        refine dropWhile_head_false pyIsSpace l a (u ++ t.reverse) ?_
        rw [hD, hfl]
        simp
      rw [List.dropWhile_cons_of_neg (by rw [ha]; simp)]
  show ((((trimChars l).dropWhile pyIsSpace).reverse).dropWhile pyIsSpace).reverse = trimChars l
  rw [h1]
  have h2 : (trimChars l).reverse = (l.dropWhile pyIsSpace).reverse.dropWhile pyIsSpace := by
    simp [trimChars]
  rw [h2, dropWhile_idem]
  simp [trimChars]

theorem pyStrip_idem (s : String) : pyStrip (pyStrip s) = pyStrip s := by
  show List.asString (trimChars (pyStrip s).toList) = pyStrip s
  rw [pyStrip_toList, trimChars_idem]
  rfl

theorem matchDataUri_ne_empty {s : String} (h : matchDataUri s = true) : s ≠ "" := by
  intro heq
  rw [heq] at h
  exact absurd h (by decide)

/-- An accepted value (`uri.strip()` with the pattern matching) itself passes
`is_data_uri`. -/
theorem is_data_uri_of_match {u : String} (h : matchDataUri (pyStrip u) = true) :
    is_data_uri (some (pyStrip u)) = true := by
  show (if pyStrip u = "" then false else matchDataUri (pyStrip (pyStrip u))) = true
  rw [if_neg (matchDataUri_ne_empty h), pyStrip_idem]
  exact h

/-! ### Characterisation of the extraction loops -/

/-- Whether a candidate is accepted, and the accepted entry. -/
def acceptOf (getVal : Elem → Option String) (pe : List Nat × Elem) :
    Option (List Nat × String) :=
  match getVal pe.2 with
  | none => none
  | some u =>
    if u = "" then none
    else if matchDataUri (pyStrip u) then some (pe.1, pyStrip u) else none

/-- Whether a candidate is warned about, and the warning message. -/
def warnOf (getVal : Elem → Option String) (mkMsg : String → String)
    (pe : List Nat × Elem) : Option String :=
  match getVal pe.2 with
  | none => none
  | some u =>
    if u = "" then none
    else if matchDataUri (pyStrip u) then none else some (mkMsg u)

theorem stepCand_eq (g : Elem → Option String) (w : String → String)
    (pe : List Nat × Elem) (uris : List (List Nat × String)) (warns : List String) :
    stepCand g w pe uris warns =
      (uris ++ (acceptOf g pe).toList, warns ++ (warnOf g w pe).toList) := by
  unfold stepCand acceptOf warnOf
  cases g pe.2 with
  | none => simp
  | some u =>
    by_cases h1 : u = ""
    · simp [h1]
    · by_cases h2 : matchDataUri (pyStrip u) <;> simp [h1, h2]

/-- Without a cap, each loop processes every candidate: the accepted list and
the warning list are exactly the `filterMap`s of `acceptOf` and `warnOf` over
the whole candidate list, appended to the incoming accumulators — i.e. each
rejected candidate occurrence produces exactly one warning, in order, and each
accepted occurrence exactly one accepted entry. -/
theorem procLoop_none (g : Elem → Option String) (w : String → String) :
    ∀ (cands : List (List Nat × Elem)) (uris : List (List Nat × String)) (warns : List String),
      procLoop g w none cands uris warns =
        (uris ++ cands.filterMap (acceptOf g), warns ++ cands.filterMap (warnOf g w), false) := by
  intro cands
  induction cands with
  | nil => intro uris warns; simp [procLoop]
  | cons pe rest ih =>
    intro uris warns
    show (let s := stepCand g w pe uris warns;
      if capReached none s.1.length then (s.1, s.2, true)
      else procLoop g w none rest s.1 s.2) = _
    rw [stepCand_eq]
    show procLoop g w none rest _ _ = _
    rw [ih]
    cases hA : acceptOf g pe <;> cases hW : warnOf g w pe <;>
      simp [List.filterMap_cons, hA, hW]

/-- Unfolding lemma for one loop iteration. -/
theorem procLoop_cons (g : Elem → Option String) (w : String → String) (m : Option Int)
    (pe : List Nat × Elem) (rest : List (List Nat × Elem))
    (uris : List (List Nat × String)) (warns : List String) :
    procLoop g w m (pe :: rest) uris warns =
      if capReached m (stepCand g w pe uris warns).1.length
      then ((stepCand g w pe uris warns).1, (stepCand g w pe uris warns).2, true)
      else procLoop g w m rest (stepCand g w pe uris warns).1 (stepCand g w pe uris warns).2 :=
  rfl

/-- The accepted accumulator only grows. -/
theorem procLoop_extends (g : Elem → Option String) (w : String → String) (m : Option Int) :
    ∀ (cands : List (List Nat × Elem)) (uris : List (List Nat × String)) (warns : List String),
      ∃ l, (procLoop g w m cands uris warns).1 = uris ++ l := by
  intro cands
  induction cands with
  | nil => intro uris warns; exact ⟨[], by simp [procLoop]⟩
  | cons pe rest ih =>
    intro uris warns
    rw [procLoop_cons, stepCand_eq]
    by_cases hc : capReached m (uris ++ (acceptOf g pe).toList).length
    · rw [if_pos hc]
      exact ⟨(acceptOf g pe).toList, rfl⟩
    · rw [if_neg hc]
      obtain ⟨l, hl⟩ := ih (uris ++ (acceptOf g pe).toList) (warns ++ (warnOf g w pe).toList)
      exact ⟨(acceptOf g pe).toList ++ l, by rw [hl, List.append_assoc]⟩

/-- Every entry of the accepted list either was already in the accumulator or
passes `is_data_uri` itself: a value that does not match the pattern is never
added, under any cap and in either loop. -/
theorem procLoop_accepted (g : Elem → Option String) (w : String → String) (m : Option Int) :
    ∀ (cands : List (List Nat × Elem)) (uris : List (List Nat × String)) (warns : List String)
      (pu : List Nat × String), pu ∈ (procLoop g w m cands uris warns).1 →
        pu ∈ uris ∨ is_data_uri (some pu.2) = true := by
  intro cands
  induction cands with
  | nil => intro uris warns pu h; exact Or.inl (by simpa [procLoop] using h)
  | cons pe rest ih =>
    intro uris warns pu h
    rw [procLoop_cons, stepCand_eq] at h
    have key : ∀ x, x ∈ uris ++ (acceptOf g pe).toList →
        x ∈ uris ∨ is_data_uri (some x.2) = true := by
      intro x hx
      rcases List.mem_append.1 hx with hx | hx
      · exact Or.inl hx
      · right
        unfold acceptOf at hx
        revert hx
        cases g pe.2 with
        | none => simp
        | some u =>
          by_cases h1 : u = ""
          · simp [h1]
          · by_cases h2 : matchDataUri (pyStrip u)
            · simp only [h1, h2, if_neg, if_pos, ite_false, ite_true, Option.toList_some,
                List.mem_singleton]
              rintro rfl
              exact is_data_uri_of_match h2
            · simp [h1, h2]
    by_cases hc : capReached m (uris ++ (acceptOf g pe).toList).length
    · rw [if_pos hc] at h
      exact key pu h
    · rw [if_neg hc] at h
      rcases ih _ _ pu h with hmem | hok
      · exact key pu hmem
      · exact Or.inr hok

/-- The accepted entries' paths form a sublist of the candidates' paths
(relative to the incoming accumulator): acceptance never reorders. -/
theorem procLoop_paths (g : Elem → Option String) (w : String → String) (m : Option Int) :
    ∀ (cands : List (List Nat × Elem)) (uris : List (List Nat × String)) (warns : List String),
      ((procLoop g w m cands uris warns).1.map Prod.fst).Sublist
        (uris.map Prod.fst ++ cands.map Prod.fst) := by
  intro cands
  induction cands with
  | nil => intro uris warns; simp [procLoop]
  | cons pe rest ih =>
    intro uris warns
    rw [procLoop_cons, stepCand_eq]
    have hstep : ((uris ++ (acceptOf g pe).toList).map Prod.fst).Sublist
        (uris.map Prod.fst ++ [pe.1]) := by
      rw [List.map_append]
      refine List.Sublist.append_left ?_ _
      unfold acceptOf
      cases g pe.2 with
      | none => simp
      | some u =>
        by_cases h1 : u = ""
        · simp [h1]
        · by_cases h2 : matchDataUri (pyStrip u) <;> simp [h1, h2]
    by_cases hc : capReached m (uris ++ (acceptOf g pe).toList).length
    · rw [if_pos hc]
      refine hstep.trans ?_
      refine List.Sublist.append_left ?_ _
      simp
    · rw [if_neg hc]
      refine (ih _ _).trans ?_
      have h2 : ((uris.map Prod.fst ++ [pe.1]) ++ rest.map Prod.fst).Sublist
          (uris.map Prod.fst ++ (pe.1 :: rest.map Prod.fst)) := by
        rw [List.append_assoc]
        simp
      have h1 : (((uris ++ (acceptOf g pe).toList).map Prod.fst) ++ rest.map Prod.fst).Sublist
          ((uris.map Prod.fst ++ [pe.1]) ++ rest.map Prod.fst) :=
        List.Sublist.append_right hstep _
      exact (h1.trans h2)

theorem acceptOf_toList_len (g : Elem → Option String) (pe : List Nat × Elem) :
    (acceptOf g pe).toList.length ≤ 1 := by
  cases acceptOf g pe <;> simp

theorem procLoop_none_cons (g : Elem → Option String) (w : String → String)
    (pe : List Nat × Elem) (rest : List (List Nat × Elem))
    (uris : List (List Nat × String)) (warns : List String) :
    procLoop g w none (pe :: rest) uris warns =
      procLoop g w none rest (stepCand g w pe uris warns).1 (stepCand g w pe uris warns).2 := by
  rw [procLoop_cons]
  simp [capReached]

/-- With a positive cap `k`, the capped loop behaves exactly like the
uncapped loop restricted to a prefix of the candidates: it accepts at most
`k` entries, and when it stopped before the end of the list it is because the
`k`-th entry had just been accepted — so candidates after that point
contribute neither accepted entries nor warnings. -/
theorem procLoop_cap (g : Elem → Option String) (w : String → String) (k : Int) (hk : 0 < k) :
    ∀ (cands : List (List Nat × Elem)) (uris : List (List Nat × String)) (warns : List String),
      (uris.length : Int) < k →
      ∃ n, n ≤ cands.length ∧
        (procLoop g w (some k) cands uris warns).1 =
          (procLoop g w none (cands.take n) uris warns).1 ∧
        (procLoop g w (some k) cands uris warns).2.1 =
          (procLoop g w none (cands.take n) uris warns).2.1 ∧
        (procLoop g w (some k) cands uris warns).1.length ≤ k.toNat ∧
        (n < cands.length →
          (procLoop g w (some k) cands uris warns).1.length = k.toNat) := by
  intro cands
  induction cands with
  | nil =>
    intro uris warns hlen
    refine ⟨0, by simp, rfl, rfl, ?_, by simp⟩
    show uris.length ≤ k.toNat
    omega
  | cons pe rest ih =>
    intro uris warns hlen
    rw [procLoop_cons, stepCand_eq]
    have hlen' : (uris ++ (acceptOf g pe).toList).length ≤ uris.length + 1 := by
      rw [List.length_append]
      have := acceptOf_toList_len g pe
      omega
    by_cases hc : capReached (some k) (uris ++ (acceptOf g pe).toList).length
    · rw [if_pos hc]
      have hge : ((uris ++ (acceptOf g pe).toList).length : Int) ≥ k := by
        unfold capReached at hc
        simp only [Bool.and_eq_true, decide_eq_true_eq] at hc
        exact hc.2
      have heqk : (uris ++ (acceptOf g pe).toList).length = k.toNat := by omega
      have ht1 : List.take 1 (pe :: rest) = [pe] := rfl
      refine ⟨1, by simp, ?_, ?_, ?_, fun _ => heqk⟩
      · rw [ht1, procLoop_none_cons, stepCand_eq]
        simp [procLoop]
      · rw [ht1, procLoop_none_cons, stepCand_eq]
        simp [procLoop]
      · show (uris ++ (acceptOf g pe).toList).length ≤ k.toNat
        omega
    · rw [if_neg hc]
      have hlt : ((uris ++ (acceptOf g pe).toList).length : Int) < k := by
        unfold capReached at hc
        simp only [Bool.and_eq_true, decide_eq_true_eq, not_and, not_le] at hc
        exact hc (by omega)
      obtain ⟨n, hn, h1, h2, h3, h4⟩ := ih (uris ++ (acceptOf g pe).toList)
        (warns ++ (warnOf g w pe).toList) hlt
      refine ⟨n + 1, by simpa using hn, ?_, ?_, h3, ?_⟩
      · rw [List.take_succ_cons, procLoop_none_cons, stepCand_eq]
        exact h1
      · rw [List.take_succ_cons, procLoop_none_cons, stepCand_eq]
        exact h2
      · intro hlt2
        exact h4 (by simpa using hlt2)

/-- If some candidate in the list passes `is_data_uri` on its extracted
value, the loop either stopped early at the cap or ends with a nonempty
accepted list. -/
theorem procLoop_valid (g : Elem → Option String) (w : String → String) (m : Option Int) :
    ∀ (cands : List (List Nat × Elem)) (uris : List (List Nat × String)) (warns : List String),
      (∃ pe ∈ cands, is_data_uri (g pe.2) = true) →
      (procLoop g w m cands uris warns).2.2 = true ∨
        (procLoop g w m cands uris warns).1 ≠ [] := by
  intro cands
  induction cands with
  | nil => rintro uris warns ⟨pe, hpe, -⟩; cases hpe
  | cons pe rest ih =>
    rintro uris warns ⟨pe', hpe', hval⟩
    rw [procLoop_cons, stepCand_eq]
    by_cases hc : capReached m (uris ++ (acceptOf g pe).toList).length
    · rw [if_pos hc]
      exact Or.inl rfl
    · rw [if_neg hc]
      rcases List.mem_cons.1 hpe' with rfl | hmem
      · right
        have hne : acceptOf g pe' ≠ none := by
          unfold acceptOf
          cases hg : g pe'.2 with
          | none => rw [hg] at hval; simp [is_data_uri] at hval
          | some u =>
            rw [hg] at hval
            simp only [is_data_uri] at hval
            by_cases h1 : u = ""
            · rw [if_pos h1] at hval; cases hval
            · rw [if_neg h1] at hval
              simp [h1, hval]
        have hne2 : (acceptOf g pe').toList ≠ [] := by
          cases hA : acceptOf g pe' with
          | none => exact absurd hA hne
          | some v => simp
        obtain ⟨l, hl⟩ := procLoop_extends g w m rest
          (uris ++ (acceptOf g pe').toList) (warns ++ (warnOf g w pe').toList)
        rw [hl]
        simp only [ne_eq, List.append_assoc, List.append_eq_nil]
        rintro ⟨-, hA, -⟩
        exact hne2 hA
      · exact ih _ _ ⟨pe', hmem, hval⟩

/-! ### Control flow of `extract_uris_data` -/

theorem extract_eq_early (root : Elem) (m : Option Int)
    (us : List (List Nat × String)) (ws : List String)
    (h : procLoop getSrcAttr warnMsg12 m (candidatesTier12 root) [] [] = (us, ws, true)) :
    extract_uris_data root m = (.ok us, ws) := by
  unfold extract_uris_data
  rw [h]

theorem extract_eq_main (root : Elem) (m : Option Int)
    (us : List (List Nat × String)) (ws : List String)
    (h : procLoop getSrcAttr warnMsg12 m (candidatesTier12 root) [] [] = (us, ws, false))
    (hne : us ≠ []) :
    extract_uris_data root m = (.ok us, ws) := by
  unfold extract_uris_data
  rw [h]
  have : us.isEmpty = false := by simpa [List.isEmpty_iff] using hne
  simp [this]

theorem extract_eq_fallback (root : Elem) (m : Option Int) (ws : List String)
    (h : procLoop getSrcAttr warnMsg12 m (candidatesTier12 root) [] [] = ([], ws, false)) :
    extract_uris_data root m =
      (match procLoop getHrefAttr warnMsgSvg m (svgImages root) [] ws with
       | (us2, ws2, _) =>
         if us2.isEmpty then (.error noDataUrisMsg, ws2) else (.ok us2, ws2)) := by
  unfold extract_uris_data
  rw [h]
  rfl

/-! ### C3 — the image cap -/

/-- C3: with a positive cap `k`, `extract_uris_data` accepts at most `k` URIs,
and in both loops the capped run coincides (accepted list and warning list
alike) with the uncapped run on a prefix of the candidate list; when the loop
did not reach the end of its candidates, the prefix ends exactly at the `k`-th
acceptance — so candidates after the `k`-th accepted one are never evaluated
and produce no warnings. -/
theorem extract_cap_stops (root : Elem) (k : Int) (hk : 0 < k) :
    (∀ us ws, extract_uris_data root (some k) = (.ok us, ws) → us.length ≤ k.toNat) ∧
    (∃ n, n ≤ (candidatesTier12 root).length ∧
      (procLoop getSrcAttr warnMsg12 (some k) (candidatesTier12 root) [] []).1 =
        (procLoop getSrcAttr warnMsg12 none (List.take n (candidatesTier12 root)) [] []).1 ∧
      (procLoop getSrcAttr warnMsg12 (some k) (candidatesTier12 root) [] []).2.1 =
        (procLoop getSrcAttr warnMsg12 none (List.take n (candidatesTier12 root)) [] []).2.1 ∧
      (n < (candidatesTier12 root).length →
        (procLoop getSrcAttr warnMsg12 (some k) (candidatesTier12 root) [] []).1.length
          = k.toNat)) ∧
    (∀ ws0, ∃ n, n ≤ (svgImages root).length ∧
      (procLoop getHrefAttr warnMsgSvg (some k) (svgImages root) [] ws0).1 =
        (procLoop getHrefAttr warnMsgSvg none (List.take n (svgImages root)) [] ws0).1 ∧
      (procLoop getHrefAttr warnMsgSvg (some k) (svgImages root) [] ws0).2.1 =
        (procLoop getHrefAttr warnMsgSvg none (List.take n (svgImages root)) [] ws0).2.1 ∧
      (n < (svgImages root).length →
        (procLoop getHrefAttr warnMsgSvg (some k) (svgImages root) [] ws0).1.length
          = k.toNat)) := by
  have h0 : ((([] : List (List Nat × String))).length : Int) < k := by simpa using hk
  refine ⟨?_, ?_, ?_⟩
  · intro us ws h
    rcases hp : procLoop getSrcAttr warnMsg12 (some k) (candidatesTier12 root) [] []
      with ⟨us1, ws1, flag⟩
    obtain ⟨n, -, -, -, hbound, -⟩ :=
      procLoop_cap getSrcAttr warnMsg12 k hk (candidatesTier12 root) [] [] h0
    rw [hp] at hbound
    cases flag with
    | true =>
      rw [extract_eq_early root (some k) us1 ws1 hp] at h
      obtain ⟨heq, -⟩ := Prod.mk.injEq .. ▸ h
      cases heq
      exact hbound
    | false =>
      by_cases hne : us1 = []
      · subst hne
        rw [extract_eq_fallback root (some k) ws1 hp] at h
        rcases hq : procLoop getHrefAttr warnMsgSvg (some k) (svgImages root) [] ws1
          with ⟨us2, ws2, f2⟩
        rw [hq] at h
        replace h : (if us2.isEmpty
            then ((Except.error noDataUrisMsg : Except String (List (List Nat × String))), ws2)
            else (.ok us2, ws2)) = (.ok us, ws) := h
        obtain ⟨n2, -, -, -, hbound2, -⟩ :=
          procLoop_cap getHrefAttr warnMsgSvg k hk (svgImages root) [] ws1 h0
        rw [hq] at hbound2
        by_cases hE : us2.isEmpty
        · rw [if_pos hE] at h
          cases h
        · rw [if_neg hE] at h
          have : us2 = us := by
            have := congrArg Prod.fst h
            simpa using this
          subst this
          exact hbound2
      · rw [extract_eq_main root (some k) us1 ws1 hp hne] at h
        have : us1 = us := by
          have := congrArg Prod.fst h
          simpa using this
        subst this
        exact hbound
  · obtain ⟨n, hn, h1, h2, -, h4⟩ :=
      procLoop_cap getSrcAttr warnMsg12 k hk (candidatesTier12 root) [] [] h0
    exact ⟨n, hn, h1, h2, h4⟩
  · intro ws0
    obtain ⟨n, hn, h1, h2, -, h4⟩ :=
      procLoop_cap getHrefAttr warnMsgSvg k hk (svgImages root) [] ws0 h0
    exact ⟨n, hn, h1, h2, h4⟩

/-! ### C4 — tier short-circuit -/

/-- C4: the relaxed tier is consulted only when the strict tier yields no
candidate elements; when the strict tier has at least one valid (accepted)
candidate, the whole result of `extract_uris_data` is that of processing the
strict candidates alone — the relaxed list is not used and the fallback
tier's `svg:image` scan contributes nothing; and in general the fallback
expression is reached exactly when the tier-1/2 loop ends normally with zero
accepted URIs. -/
theorem tier_short_circuit (root : Elem) (m : Option Int) :
    (strictCandidates root ≠ [] → candidatesTier12 root = strictCandidates root) ∧
    ((∃ pe ∈ strictCandidates root, is_data_uri (getSrcAttr pe.2) = true) →
      extract_uris_data root m =
        (.ok (procLoop getSrcAttr warnMsg12 m (strictCandidates root) [] []).1,
         (procLoop getSrcAttr warnMsg12 m (strictCandidates root) [] []).2.1)) ∧
    (∀ us ws, procLoop getSrcAttr warnMsg12 m (candidatesTier12 root) [] [] = (us, ws, false) →
      us ≠ [] → extract_uris_data root m = (.ok us, ws)) ∧
    (∀ ws, procLoop getSrcAttr warnMsg12 m (candidatesTier12 root) [] [] = ([], ws, false) →
      extract_uris_data root m =
        (match procLoop getHrefAttr warnMsgSvg m (svgImages root) [] ws with
         | (us2, ws2, _) =>
           if us2.isEmpty then (.error noDataUrisMsg, ws2) else (.ok us2, ws2))) := by
  have hsel : strictCandidates root ≠ [] → candidatesTier12 root = strictCandidates root := by
    intro hne
    unfold candidatesTier12
    have : (strictCandidates root).isEmpty = false := by simpa [List.isEmpty_iff] using hne
    simp [this]
  refine ⟨hsel, ?_, ?_, ?_⟩
  · rintro hval
    have hne : strictCandidates root ≠ [] := by
      rintro hnil
      obtain ⟨pe, hpe, -⟩ := hval
      rw [hnil] at hpe
      cases hpe
    have hcand := hsel hne
    rcases hp : procLoop getSrcAttr warnMsg12 m (strictCandidates root) [] []
      with ⟨us1, ws1, flag⟩
    have hp' : procLoop getSrcAttr warnMsg12 m (candidatesTier12 root) [] []
        = (us1, ws1, flag) := by rw [hcand, hp]
    cases flag with
    | true => exact extract_eq_early root m us1 ws1 hp'
    | false =>
      have hval2 := procLoop_valid getSrcAttr warnMsg12 m (strictCandidates root) [] [] hval
      rw [hp] at hval2
      rcases hval2 with hflag | hus
      · cases hflag
      · exact extract_eq_main root m us1 ws1 hp' (by simpa using hus)
  · intro us ws h hne
    exact extract_eq_main root m us ws h hne
  · intro ws h
    exact extract_eq_fallback root m ws h

/-! ### C6 — rejected candidates: skipped, warned once, with a clipped value -/

/-- C6: in either tier's loop (run uncapped), the accepted entries and the
warnings are exactly the `filterMap`s of `acceptOf`/`warnOf` over the
candidates, so a candidate whose value is present (non-empty) but fails the
data-URI pattern contributes nothing to the result and exactly one warning,
whose text carries only the first 60 characters of the value; and under any
cap, every URI in a successful extraction result passes `is_data_uri`, so a
non-matching value is never returned. -/
theorem rejected_candidate_warned (root : Elem) (m : Option Int) :
    (∀ (cands : List (List Nat × Elem)),
      procLoop getSrcAttr warnMsg12 none cands [] [] =
        (cands.filterMap (acceptOf getSrcAttr),
         cands.filterMap (warnOf getSrcAttr warnMsg12), false)) ∧
    (∀ (cands : List (List Nat × Elem)),
      procLoop getHrefAttr warnMsgSvg none cands [] [] =
        (cands.filterMap (acceptOf getHrefAttr),
         cands.filterMap (warnOf getHrefAttr warnMsgSvg), false)) ∧
    (∀ (g : Elem → Option String) (w : String → String) (pe : List Nat × Elem) (u : String),
      g pe.2 = some u → u ≠ "" → matchDataUri (pyStrip u) = false →
      acceptOf g pe = none ∧ warnOf g w pe = some (w u)) ∧
    (∀ u, warnMsg12 u =
      "Non-data URI ignored (expected base64 data:image/*) " ++ u.take 60 ++ "…") ∧
    (∀ u, warnMsgSvg u = "Non-data URI in <image> ignored: " ++ u.take 60 ++ "…") ∧
    (∀ us ws pu, extract_uris_data root m = (.ok us, ws) → pu ∈ us →
      is_data_uri (some pu.2) = true) ∧
    (∀ v, is_data_uri (some v) = false →
      ∀ us ws, extract_uris_data root m = (.ok us, ws) → v ∉ us.map (fun pu => pu.2)) := by
  have hmem : ∀ us ws pu, extract_uris_data root m = (.ok us, ws) → pu ∈ us →
      is_data_uri (some pu.2) = true := by
    intro us ws pu h hpu
    rcases hp : procLoop getSrcAttr warnMsg12 m (candidatesTier12 root) [] []
      with ⟨us1, ws1, flag⟩
    have hacc1 := procLoop_accepted getSrcAttr warnMsg12 m (candidatesTier12 root) [] []
    rw [hp] at hacc1
    cases flag with
    | true =>
      rw [extract_eq_early root m us1 ws1 hp] at h
      have : us1 = us := by
        have := congrArg Prod.fst h
        simpa using this
      subst this
      rcases hacc1 pu hpu with hin | hok
      · cases hin
      · exact hok
    | false =>
      by_cases hne : us1 = []
      · subst hne
        rw [extract_eq_fallback root m ws1 hp] at h
        rcases hq : procLoop getHrefAttr warnMsgSvg m (svgImages root) [] ws1
          with ⟨us2, ws2, f2⟩
        rw [hq] at h
        replace h : (if us2.isEmpty
            then ((Except.error noDataUrisMsg : Except String (List (List Nat × String))), ws2)
            else (.ok us2, ws2)) = (.ok us, ws) := h
        have hacc2 := procLoop_accepted getHrefAttr warnMsgSvg m (svgImages root) [] ws1
        rw [hq] at hacc2
        by_cases hE : us2.isEmpty
        · rw [if_pos hE] at h
          cases h
        · rw [if_neg hE] at h
          have : us2 = us := by
            have := congrArg Prod.fst h
            simpa using this
          subst this
          rcases hacc2 pu hpu with hin | hok
          · cases hin
          · exact hok
      · rw [extract_eq_main root m us1 ws1 hp hne] at h
        have : us1 = us := by
          have := congrArg Prod.fst h
          simpa using this
        subst this
        rcases hacc1 pu hpu with hin | hok
        · cases hin
        · exact hok
  refine ⟨?_, ?_, ?_, fun u => rfl, fun u => rfl, hmem, ?_⟩
  · intro cands
    rw [procLoop_none]
    simp
  · intro cands
    rw [procLoop_none]
    simp
  · intro g w pe u hg hne hno
    constructor
    · unfold acceptOf
      rw [hg]
      simp [hne, hno]
    · unfold warnOf
      rw [hg]
      simp [hne, hno]
  · intro v hv us ws h hmem2
    obtain ⟨pu, hpu, hpv⟩ := List.mem_map.1 hmem2
    have := hmem us ws pu h hpu
    rw [hpv] at this
    rw [this] at hv
    cases hv

/-! ### C2 (amended) — what the strict tier actually matches -/

theorem mem_childEntriesAux : ∀ (cs : List Elem) (i : Nat) (j : Nat) (x : Elem),
    (j, x) ∈ childEntriesAux cs i ↔ ∃ d, j = i + d ∧ cs[d]? = some x := by
  intro cs
  induction cs with
  | nil => intro i j x; simp [childEntriesAux]
  | cons c cs ih =>
    intro i j x
    simp only [childEntriesAux, List.mem_cons, ih]
    constructor
    · rintro (heq | ⟨d, rfl, hd⟩)
      · cases heq
        exact ⟨0, by omega, by simp⟩
      · exact ⟨d + 1, by omega, by simpa using hd⟩
    · rintro ⟨d, rfl, hd⟩
      match d with
      | 0 =>
        left
        rw [List.getElem?_cons_zero] at hd
        cases hd
        simp
      | d + 1 =>
        right
        exact ⟨d, by omega, by simpa using hd⟩

theorem mem_childEntries (e : Elem) (j : Nat) (x : Elem) :
    (j, x) ∈ childEntries e ↔ e.children[j]? = some x := by
  unfold childEntries
  rw [mem_childEntriesAux]
  constructor
  · rintro ⟨d, rfl, hd⟩
    simpa using hd
  · intro h
    exact ⟨j, by omega, h⟩

/-- C2 (amended): membership in the strict tier's candidate list.  The code's
strict tier collects exactly the XHTML `img` children (with or without a
`src` attribute) of `characters`-class XHTML divs that are **direct children**
of an `anilist`-class XHTML div (the anilist div itself at any depth). -/
theorem strict_tier_amended (root : Elem) (p : List Nat) (x : Elem) :
    (p, x) ∈ strictCandidates root ↔
      ∃ q i j a c, q ≠ [] ∧ subtreeAt root q = some a ∧ isAnilistDiv a = true ∧
        a.children[i]? = some c ∧ isCharactersDiv c = true ∧
        c.children[j]? = some x ∧ x.tag = imgTag ∧ p = q ++ [i, j] := by
  unfold strictCandidates anilistContainers
  constructor
  · intro h
    obtain ⟨⟨q, a⟩, hqa, h⟩ := List.mem_flatMap.1 h
    obtain ⟨hqa, ha⟩ := List.mem_filter.1 hqa
    obtain ⟨hqne, hsub⟩ := (mem_descendants root q a).1 hqa
    obtain ⟨⟨i, c⟩, hic, h⟩ := List.mem_flatMap.1 h
    obtain ⟨hic, hc⟩ := List.mem_filter.1 hic
    obtain ⟨⟨j, d⟩, hjd, heq⟩ := List.mem_map.1 h
    obtain ⟨hjd, hd⟩ := List.mem_filter.1 hjd
    obtain ⟨heq1, heq2⟩ := Prod.mk.injEq .. ▸ heq
    subst heq2
    refine ⟨q, i, j, a, c, hqne, hsub, ha, (mem_childEntries a i c).1 hic, hc,
      (mem_childEntries c j d).1 hjd, by simpa using hd, heq1.symm⟩
  · rintro ⟨q, i, j, a, c, hqne, hsub, ha, hic, hc, hjx, htag, rfl⟩
    refine List.mem_flatMap.2 ⟨(q, a), List.mem_filter.2
      ⟨(mem_descendants root q a).2 ⟨hqne, hsub⟩, ha⟩, ?_⟩
    refine List.mem_flatMap.2 ⟨(i, c), List.mem_filter.2
      ⟨(mem_childEntries a i c).2 hic, hc⟩, ?_⟩
    exact List.mem_map.2 ⟨(j, x), List.mem_filter.2
      ⟨(mem_childEntries c j x).2 hjx, by simp [htag]⟩, rfl⟩

/-! ### C10 — exact class matching on XHTML divs only -/

theorem isAnilistDiv_false {e : Elem}
    (h : e.get "class" ≠ some "anilist" ∨ e.tag ≠ divTag) : isAnilistDiv e = false := by
  unfold isAnilistDiv
  rcases h with h | h
  · have : (e.get "class" == some "anilist") = false := by
      simpa using h
    simp [this]
  · have : (e.tag == divTag) = false := by
      simpa using h
    simp [this]

/-- C10: the anilist-container test used by extraction tiers 1-2 and by the
marker search of selection is exact equality of the full `class` value on an
XHTML `div`: an element whose `class` is anything else (e.g. the multi-class
value "anilist card"), or whose tag is not the XHTML `div`, is never
recognised as an anilist container and never makes the marker test succeed. -/
theorem class_match_exact (e : Elem)
    (h : e.get "class" ≠ some "anilist" ∨ e.tag ≠ divTag) :
    isAnilistDiv e = false ∧
    (∀ root p, (p, e) ∉ anilistContainers root) ∧
    (∀ x : Elem,
      (∀ pe ∈ descendants x, pe.2.get "class" ≠ some "anilist" ∨ pe.2.tag ≠ divTag) →
      hasAnilist x = false) := by
  refine ⟨isAnilistDiv_false h, ?_, ?_⟩
  · intro root p hmem
    have := (List.mem_filter.1 hmem).2
    rw [isAnilistDiv_false h] at this
    cases this
  · intro x hx
    unfold hasAnilist
    rw [List.any_eq_false]
    intro pe hpe
    rw [isAnilistDiv_false (hx pe hpe)]
    simp

def eMultiClass : Elem := .mk divTag [("class", "anilist card")] []

theorem class_match_exact_witness :
    (eMultiClass.get "class" ≠ some "anilist" ∨ eMultiClass.tag ≠ divTag) ∧
    (isAnilistDiv eMultiClass = false ∧
      (∀ root p, (p, eMultiClass) ∉ anilistContainers root) ∧
      (∀ x : Elem,
        (∀ pe ∈ descendants x, pe.2.get "class" ≠ some "anilist" ∨ pe.2.tag ≠ divTag) →
        hasAnilist x = false)) :=
  ⟨Or.inl (by decide), class_match_exact eMultiClass (Or.inl (by decide))⟩

/-! ### C9 — the built fragment -/

/-- All `img`-tagged elements in the subtree below `e`, in document order. -/
def imgElems (e : Elem) : List Elem :=
  ((descendants e).map Prod.snd).filter (fun x => x.tag == imgTag)

theorem imgElems_one (t : String) (a : List (String × String)) (c : Elem) :
    imgElems (.mk t a [c]) = (if c.tag == imgTag then [c] else []) ++ imgElems c := by
  unfold imgElems
  show (((descList [c] 0).map Prod.snd).filter _) = _
  rw [show descList [c] 0 =
    ([0], c) :: (descendants c).map (fun pe => (0 :: pe.1, pe.2)) from by
      simp [descList]]
  rw [List.map_cons, List.map_map]
  rw [show (Prod.snd ∘ fun pe : List Nat × Elem => ((0 : Nat) :: pe.1, pe.2)) = Prod.snd
    from rfl]
  rw [List.filter_cons]
  by_cases hc : (c.tag == imgTag) = true <;> simp [hc]

theorem descList_map_snd_leaves : ∀ (xs : List Elem), (∀ x ∈ xs, x.children = []) →
    ∀ i, (descList xs i).map Prod.snd = xs := by
  intro xs
  induction xs with
  | nil => intro h i; simp [descList]
  | cons c cs ih =>
    intro h i
    have hc : descendants c = [] := by
      have := h c (by simp)
      match c, this with
      | .mk t a [], _ => simp [descendants, descList]
    rw [show descList (c :: cs) i =
      (([i], c) :: (descendants c).map (fun pe => (i :: pe.1, pe.2))) ++ descList cs (i + 1)
      from rfl]
    rw [hc]
    simp only [List.map_nil, List.map_append, List.map_cons]
    rw [ih (fun x hx => h x (by simp [hx])) (i + 1)]
    simp

/-- C9: `build_anilist_section` produces, below its two returned elements,
exactly one `img` element per input URI in order — so the number of `img`
elements equals the number of accepted URIs — and each generated `img`
carries `src` equal to the URI, the stringified width and height, and
`alt="character"`. -/
theorem build_fragment_imgs (images : List String) (w h : Int) :
    (build_anilist_section images w h).flatMap imgElems
      = images.map (fun u => mkImgElem u w h) ∧
    ((build_anilist_section images w h).flatMap imgElems).length = images.length ∧
    (∀ u : String, (mkImgElem u w h).tag = imgTag ∧
      (mkImgElem u w h).get "src" = some u ∧
      (mkImgElem u w h).get "width" = some (toString w) ∧
      (mkImgElem u w h).get "height" = some (toString h) ∧
      (mkImgElem u w h).get "alt" = some "character") := by
  have hleaves : ∀ x ∈ images.map (fun u => mkImgElem u w h), x.children = [] := by
    rintro x hx
    obtain ⟨u, -, rfl⟩ := List.mem_map.1 hx
    rfl
  have hchars : imgElems (Elem.mk divTag [("class", "characters")]
      (images.map (fun u => mkImgElem u w h))) = images.map (fun u => mkImgElem u w h) := by
    unfold imgElems
    show (((descList (images.map (fun u => mkImgElem u w h)) 0).map Prod.snd).filter _) = _
    rw [descList_map_snd_leaves _ hleaves 0]
    rw [List.filter_eq_self]
    rintro x hx
    obtain ⟨u, -, rfl⟩ := List.mem_map.1 hx
    simp [mkImgElem, Elem.tag]
  have hmain : (build_anilist_section images w h).flatMap imgElems
      = images.map (fun u => mkImgElem u w h) := by
    show imgElems (.mk divTag [("class", "items-wrapper")] _) ++
      (imgElems (.mk divTag [("id", "metrics-end")] []) ++ []) = _
    rw [imgElems_one, imgElems_one, imgElems_one, imgElems_one, imgElems_one]
    rw [hchars]
    rw [show imgElems (Elem.mk divTag [("id", "metrics-end")] []) = [] from rfl]
    simp [Elem.tag, show (sectionTag == imgTag) = false from by decide,
      show (divTag == imgTag) = false from by decide]
  refine ⟨hmain, by rw [hmain]; simp, ?_⟩
  intro u
  refine ⟨rfl, ?_, ?_, ?_, ?_⟩ <;> simp [mkImgElem, Elem.get, Elem.attrs, List.find?]

/-! ### C7 — selection with `merge=True` -/

theorem foreignObjects_sorted (root : Elem) :
    (foreignObjects root).Pairwise docBefore :=
  List.Pairwise.sublist (List.filter_sublist _) (descendants_sorted root)

theorem mem_foreignObjects {root : Elem} {p : List Nat} {e : Elem}
    (h : (p, e) ∈ foreignObjects root) : subtreeAt root p = some e :=
  ((mem_descendants root p e).1 (List.mem_filter.1 h).1).2

/-- The head of a filtered list is the first element satisfying the test: in
a `Pairwise R` list it is `R`-before every other element that satisfies it. -/
theorem filter_head_min {α : Type} {R : α → α → Prop} {p : α → Bool} :
    ∀ (l : List α), l.Pairwise R → ∀ a rest, l.filter p = a :: rest →
      p a = true ∧ a ∈ l ∧ ∀ b ∈ l, p b = true → b = a ∨ R a b := by
  intro l
  induction l with
  | nil => intro _ a rest h; cases h
  | cons x xs ih =>
    intro hpw a rest h
    rw [List.filter_cons] at h
    by_cases hx : p x = true
    · rw [if_pos hx] at h
      obtain ⟨rfl, -⟩ := List.cons.injEq .. ▸ h
      refine ⟨hx, by simp, ?_⟩
      intro b hb hpb
      rcases List.mem_cons.1 hb with rfl | hb
      · exact Or.inl rfl
      · exact Or.inr ((List.pairwise_cons.1 hpw).1 b hb)
    · rw [if_neg hx] at h
      obtain ⟨hpa, hmem, hmin⟩ := ih (List.pairwise_cons.1 hpw).2 a rest h
      refine ⟨hpa, by simp [hmem], ?_⟩
      intro b hb hpb
      rcases List.mem_cons.1 hb with rfl | hb
      · exact absurd hpb hx
      · exact hmin b hb hpb

theorem find_object_true_eq (root : Elem) (f : List Nat × Elem) (fs : List (List Nat × Elem))
    (hfos : foreignObjects root = f :: fs) :
    find_object root true = .ok (((f :: fs).filter (fun pe => hasAnilist pe.2)).headD f) := by
  unfold find_object
  rw [hfos]
  rfl

/-- C7: with `merge=True`, `find_object` returns — unmodified, children and
all — the first `foreignObject` in document order containing an anilist
marker descendant when one exists, and otherwise the first `foreignObject` in
document order. -/
theorem select_merge_true (root : Elem) (h : foreignObjects root ≠ []) :
    ∃ p e, find_object root true = .ok (p, e) ∧
      (p, e) ∈ foreignObjects root ∧
      subtreeAt root p = some e ∧
      ((∃ qe ∈ foreignObjects root, hasAnilist qe.2 = true) →
        (hasAnilist e = true ∧
          ∀ qe ∈ foreignObjects root, hasAnilist qe.2 = true →
            qe.1 = p ∨ pathLt p qe.1 = true)) ∧
      ((∀ qe ∈ foreignObjects root, hasAnilist qe.2 = false) →
        ∀ qe ∈ foreignObjects root, qe.1 = p ∨ pathLt p qe.1 = true) := by
  match hfos : foreignObjects root with
  | [] => exact absurd hfos h
  | f :: fs =>
    have hsorted : (f :: fs).Pairwise docBefore := hfos ▸ foreignObjects_sorted root
    have heq := find_object_true_eq root f fs hfos
    match hani : (f :: fs).filter (fun pe => hasAnilist pe.2) with
    | [] =>
      rw [hani] at heq
      refine ⟨f.1, f.2, by simpa using heq, by simp [hfos], ?_, ?_, ?_⟩
      · exact mem_foreignObjects (by simp [hfos])
      · rintro ⟨qe, hqe, hq⟩
        have := List.filter_eq_nil_iff.1 hani qe hqe
        simp [hq] at this
      · intro _ qe hqe
        rcases List.mem_cons.1 hqe with rfl | hqe
        · exact Or.inl rfl
        · exact Or.inr ((List.pairwise_cons.1 hsorted).1 qe hqe)
    | a :: rest =>
      rw [hani] at heq
      obtain ⟨hpa, hamem, hmin⟩ := filter_head_min (f :: fs) hsorted a rest hani
      refine ⟨a.1, a.2, by simpa using heq, by simp [hfos, hamem], ?_, ?_, ?_⟩
      · exact mem_foreignObjects (by simp [hfos, hamem])
      · intro _
        refine ⟨hpa, ?_⟩
        intro qe hqe hq
        rcases hmin qe hqe hq with rfl | hr
        · exact Or.inl rfl
        · exact Or.inr hr
      · intro hnone
        have := hnone (a.1, a.2) (by simp [hfos, hamem])
        rw [hpa] at this
        cases this

/-- A target with two `foreignObject`s, the second containing a marker. -/
def tgtMarkerSecond : Elem :=
  .mk svgTag []
    [.mk foTag [("id", "first")] [.mk divTag [("class", "plain")] []],
     .mk foTag [("id", "second")] [.mk divTag [("class", "anilist")] [imgOf uriA]]]

theorem select_merge_true_witness :
    foreignObjects tgtMarkerSecond ≠ [] ∧
    (∃ p e, find_object tgtMarkerSecond true = .ok (p, e) ∧
      (p, e) ∈ foreignObjects tgtMarkerSecond ∧
      subtreeAt tgtMarkerSecond p = some e ∧
      ((∃ qe ∈ foreignObjects tgtMarkerSecond, hasAnilist qe.2 = true) →
        (hasAnilist e = true ∧
          ∀ qe ∈ foreignObjects tgtMarkerSecond, hasAnilist qe.2 = true →
            qe.1 = p ∨ pathLt p qe.1 = true)) ∧
      ((∀ qe ∈ foreignObjects tgtMarkerSecond, hasAnilist qe.2 = false) →
        ∀ qe ∈ foreignObjects tgtMarkerSecond, qe.1 = p ∨ pathLt p qe.1 = true)) :=
  ⟨by decide, select_merge_true tgtMarkerSecond (by decide)⟩

/-! ### C8 — injection mutates exactly one insertion point -/

theorem startsWithPath_iff : ∀ (p q : List Nat),
    startsWithPath p q = true ↔ ∃ r, q = p ++ r := by
  intro p
  induction p with
  | nil => intro q; simp [startsWithPath]
  | cons a as ih =>
    intro q
    match q with
    | [] =>
      simp [startsWithPath]
    | b :: bs =>
      rw [show startsWithPath (a :: as) (b :: bs) = ((a == b) && startsWithPath as bs)
        from rfl]
      constructor
      · intro h
        obtain ⟨hab, hsw⟩ := Bool.and_eq_true .. ▸ h
        obtain ⟨r, rfl⟩ := (ih bs).1 hsw
        have hba : a = b := by simpa using hab
        exact ⟨r, by simp [hba]⟩
      · rintro ⟨r, hq⟩
        obtain ⟨rfl, rfl⟩ := List.cons.injEq .. ▸ hq
        rw [Bool.and_eq_true]
        exact ⟨by simp, (ih _).2 ⟨r, rfl⟩⟩

theorem replaceInKids_length : ∀ (cs : List Elem) (i : Nat) (rest : List Nat) (n : Elem),
    (replaceInKids cs i rest n).length = cs.length := by
  intro cs
  induction cs with
  | nil => intro i rest n; rfl
  | cons c cs ih =>
    intro i rest n
    match i with
    | 0 => rfl
    | i + 1 => simp [replaceInKids, ih]

theorem replaceAt_nil (e n : Elem) : replaceAt e [] n = n := by
  match e with
  | .mk t a cs => rfl

theorem subtreeAt_nil (e : Elem) : subtreeAt e [] = some e := by
  match e with
  | .mk t a cs => rfl

theorem subtreeInKids_replace_self
    (rest : List Nat) (n x : Elem)
    (helem : ∀ (c : Elem), subtreeAt c rest = some x →
      subtreeAt (replaceAt c rest n) rest = some n) :
    ∀ (cs : List Elem) (i : Nat),
      subtreeInKids cs i rest = some x →
      subtreeInKids (replaceInKids cs i rest n) i rest = some n := by
  intro cs
  induction cs with
  | nil => intro i h; cases h
  | cons c cs ih =>
    intro i h
    match i with
    | 0 => exact helem c h
    | i + 1 => exact ih i h

/-- Replacing the subtree at a valid path plants the new subtree there. -/
theorem subtreeAt_replace_self : ∀ (p : List Nat) (root n x : Elem),
    subtreeAt root p = some x → subtreeAt (replaceAt root p n) p = some n := by
  intro p
  induction p with
  | nil =>
    intro root n x _
    rw [replaceAt_nil, subtreeAt_nil]
  | cons i rest ih =>
    intro root n x h
    match root with
    | .mk t a cs =>
      exact subtreeInKids_replace_self rest n x (fun c hc => ih c n x hc) cs i h

theorem subtreeInKids_replace_ne : ∀ (cs : List Elem) (i : Nat) (rest : List Nat) (n : Elem)
    (j : Nat) (q : List Nat), i ≠ j →
    subtreeInKids (replaceInKids cs i rest n) j q = subtreeInKids cs j q := by
  intro cs
  induction cs with
  | nil => intro i rest n j q _; cases i <;> rfl
  | cons c cs ih =>
    intro i rest n j q hij
    match i, j with
    | 0, 0 => exact absurd rfl hij
    | 0, j + 1 => rfl
    | i + 1, 0 => rfl
    | i + 1, j + 1 => exact ih i rest n j q (by omega)

theorem subtreeInKids_replace_same (rest : List Nat) (n : Elem) (q : List Nat)
    (helem : ∀ (c : Elem), subtreeAt (replaceAt c rest n) q = subtreeAt c q) :
    ∀ (cs : List Elem) (i : Nat),
      subtreeInKids (replaceInKids cs i rest n) i q = subtreeInKids cs i q := by
  intro cs
  induction cs with
  | nil => intro i; cases i <;> rfl
  | cons c cs ih =>
    intro i
    match i with
    | 0 => exact helem c
    | i + 1 => exact ih i

/-- Replacing at `p` leaves every disjoint location untouched. -/
theorem subtreeAt_replace_other : ∀ (p q : List Nat) (root n : Elem),
    startsWithPath p q = false → startsWithPath q p = false →
    subtreeAt (replaceAt root p n) q = subtreeAt root q := by
  intro p
  induction p with
  | nil => intro q root n hpq _; cases hpq
  | cons i p' ih =>
    intro q root n hpq hqp
    match q with
    | [] => cases hqp
    | j :: q' =>
      match root with
      | .mk t a cs =>
        show subtreeInKids (replaceInKids cs i p' n) j q' = subtreeInKids cs j q'
        by_cases hij : i = j
        · subst hij
          rw [show startsWithPath (i :: p') (i :: q') = ((i == i) && startsWithPath p' q')
            from rfl] at hpq
          rw [show startsWithPath (i :: q') (i :: p') = ((i == i) && startsWithPath q' p')
            from rfl] at hqp
          simp only [beq_self_eq_true, Bool.true_and] at hpq hqp
          exact subtreeInKids_replace_same p' n q' (fun c => ih q' c n hpq hqp) cs i
        · exact subtreeInKids_replace_ne cs i p' n j q' hij

theorem subtreeInKids_replace_under (r rest : List Nat) (n e : Elem)
    (helem : ∀ (c : Elem), subtreeAt c rest = some e →
      subtreeAt (replaceAt c (rest ++ r) n) rest = some (replaceAt e r n)) :
    ∀ (cs : List Elem) (i : Nat),
      subtreeInKids cs i rest = some e →
      subtreeInKids (replaceInKids cs i (rest ++ r) n) i rest = some (replaceAt e r n) := by
  intro cs
  induction cs with
  | nil => intro i h; cases h
  | cons c cs ih =>
    intro i h
    match i with
    | 0 => exact helem c h
    | i + 1 => exact ih i h

/-- Replacing below `q` rewrites the element at `q` by an inner replacement. -/
theorem subtreeAt_replace_under : ∀ (q r : List Nat) (root n e : Elem),
    subtreeAt root q = some e →
    subtreeAt (replaceAt root (q ++ r) n) q = some (replaceAt e r n) := by
  intro q
  induction q with
  | nil =>
    intro r root n e h
    rw [subtreeAt_nil] at h
    cases h
    rw [show ([] : List Nat) ++ r = r from rfl, subtreeAt_nil]
  | cons i q' ih =>
    intro r root n e h
    match root with
    | .mk t a cs =>
      exact subtreeInKids_replace_under r q' n e (fun c hc => ih r c n e hc) cs i h

theorem Elem.eta (e : Elem) : Elem.mk e.tag e.attrs e.children = e := by
  match e with
  | .mk t a cs => rfl

theorem headD_filter_mem {α : Type} (l : List α) (pr : α → Bool) (f : α) (hf : f ∈ l) :
    (l.filter pr).headD f ∈ l := by
  cases hfil : l.filter pr with
  | nil => exact hf
  | cons a rest =>
    have ha : a ∈ l.filter pr := by rw [hfil]; simp
    exact (List.mem_filter.1 ha).1

theorem find_object_false_eq (root : Elem) (f : List Nat × Elem) (fs : List (List Nat × Elem))
    (hfos : foreignObjects root = f :: fs) :
    find_object root false =
      .ok ((((f :: fs).filter (fun pe => !hasAnilist pe.2)).headD f).1,
        .mk (((f :: fs).filter (fun pe => !hasAnilist pe.2)).headD f).2.tag
          (((f :: fs).filter (fun pe => !hasAnilist pe.2)).headD f).2.attrs
          (clearChildrenPy (((f :: fs).filter (fun pe => !hasAnilist pe.2)).headD f).2.children)) := by
  unfold find_object
  rw [hfos]
  rfl

/-- Whatever `find_object` returns is one of the document's `foreignObject`s,
returned as-is when `merge` is true and with the clearing loop applied to its
children when `merge` is false. -/
theorem find_object_selects (root : Elem) (merge : Bool) (p : List Nat) (e : Elem)
    (h : find_object root merge = .ok (p, e)) :
    ∃ fo, (p, fo) ∈ foreignObjects root ∧
      e = .mk fo.tag fo.attrs (if merge then fo.children else clearChildrenPy fo.children) := by
  cases hfos : foreignObjects root with
  | nil =>
    unfold find_object at h
    rw [hfos] at h
    cases h
  | cons f fs =>
    cases merge with
    | true =>
      rw [find_object_true_eq root f fs hfos] at h
      set a := ((f :: fs).filter (fun pe => hasAnilist pe.2)).headD f with ha
      have hmem : a ∈ f :: fs := headD_filter_mem (f :: fs) _ f (by simp)
      have hpe : a = (p, e) := by injection h
      refine ⟨a.2, ?_, ?_⟩
      · rw [show p = a.1 from by rw [hpe]]
        simpa using hmem
      · rw [show e = a.2 from by rw [hpe], if_pos rfl, Elem.eta]
    | false =>
      rw [find_object_false_eq root f fs hfos] at h
      set a := ((f :: fs).filter (fun pe => !hasAnilist pe.2)).headD f with ha
      have hmem : a ∈ f :: fs := headD_filter_mem (f :: fs) _ f (by simp)
      have hX : (a.1, Elem.mk a.2.tag a.2.attrs (clearChildrenPy a.2.children)) = (p, e) := by
        injection h
      obtain ⟨hp1, hp2⟩ := Prod.mk.injEq .. ▸ hX
      refine ⟨a.2, ?_, ?_⟩
      · rw [← hp1]
        simpa using hmem
      · rw [← hp2, if_neg (by simp)]

theorem find_object_ok (root : Elem) (merge : Bool) (hne : foreignObjects root ≠ []) :
    ∃ pe, find_object root merge = .ok pe := by
  cases hfos : foreignObjects root with
  | nil => exact absurd hfos hne
  | cons f fs =>
    cases merge with
    | true => exact ⟨_, find_object_true_eq root f fs hfos⟩
    | false => exact ⟨_, find_object_false_eq root f fs hfos⟩

/-- C8: `inject` mutates exactly one `foreignObject` of the target tree — the
selected one gets its geometry attributes forced, its children passed through
the clearing loop when `merge` is false, and the built fragment appended —
while every element not below it is untouched: disjoint subtrees are
unchanged, and each ancestor keeps its tag, its attributes and its number of
children. -/
theorem inject_frame (root : Elem) (uris : List String) (w hh : Int) (merge : Bool)
    (hne : foreignObjects root ≠ []) :
    ∃ p fo newRoot,
      (p, fo) ∈ foreignObjects root ∧
      subtreeAt root p = some fo ∧
      inject_tree root uris w hh merge = .ok newRoot ∧
      subtreeAt newRoot p = some (Elem.mk fo.tag (setGeometry fo.attrs)
        ((if merge then fo.children else clearChildrenPy fo.children) ++
          build_anilist_section uris w hh)) ∧
      (∀ q, startsWithPath p q = false → startsWithPath q p = false →
        subtreeAt newRoot q = subtreeAt root q) ∧
      (∀ q e0, startsWithPath q p = true → q ≠ p → subtreeAt root q = some e0 →
        ∃ e2, subtreeAt newRoot q = some e2 ∧ e2.tag = e0.tag ∧ e2.attrs = e0.attrs ∧
          e2.children.length = e0.children.length) := by
  obtain ⟨⟨p, e⟩, hfo⟩ := find_object_ok root merge hne
  obtain ⟨fo, hmem, he⟩ := find_object_selects root merge p e hfo
  have hsub : subtreeAt root p = some fo := mem_foreignObjects hmem
  have hfoeq : injectIntoFo e uris w hh =
      Elem.mk fo.tag (setGeometry fo.attrs)
        ((if merge then fo.children else clearChildrenPy fo.children) ++
          build_anilist_section uris w hh) := by
    subst he
    rfl
  refine ⟨p, fo, replaceAt root p (injectIntoFo e uris w hh), hmem, hsub, ?_, ?_, ?_, ?_⟩
  · unfold inject_tree
    rw [hfo]
  · rw [subtreeAt_replace_self p root _ fo hsub, hfoeq]
  · intro q hpq hqp
    exact subtreeAt_replace_other p q root _ hpq hqp
  · intro q e0 hqp hqne hsub0
    obtain ⟨r, rfl⟩ := (startsWithPath_iff q p).1 hqp
    have hrne : r ≠ [] := by
      rintro rfl
      exact hqne (by simp)
    have := subtreeAt_replace_under q r root (injectIntoFo e uris w hh) e0 hsub0
    match r, hrne with
    | u :: r', _ =>
      match e0 with
      | .mk t0 a0 cs0 =>
        refine ⟨_, this, rfl, rfl, ?_⟩
        show (replaceInKids cs0 u r' _).length = cs0.length
        exact replaceInKids_length cs0 u r' _

theorem inject_frame_witness :
    foreignObjects tgtMarkerSecond ≠ [] ∧
    (∃ p fo newRoot,
      (p, fo) ∈ foreignObjects tgtMarkerSecond ∧
      subtreeAt tgtMarkerSecond p = some fo ∧
      inject_tree tgtMarkerSecond [uriA] 36 54 false = .ok newRoot ∧
      subtreeAt newRoot p = some (Elem.mk fo.tag (setGeometry fo.attrs)
        ((if false then fo.children else clearChildrenPy fo.children) ++
          build_anilist_section [uriA] 36 54)) ∧
      (∀ q, startsWithPath p q = false → startsWithPath q p = false →
        subtreeAt newRoot q = subtreeAt tgtMarkerSecond q) ∧
      (∀ q e0, startsWithPath q p = true → q ≠ p → subtreeAt tgtMarkerSecond q = some e0 →
        ∃ e2, subtreeAt newRoot q = some e2 ∧ e2.tag = e0.tag ∧ e2.attrs = e0.attrs ∧
          e2.children.length = e0.children.length)) :=
  ⟨by decide, inject_frame tgtMarkerSecond [uriA] 36 54 false (by decide)⟩

/-! ### C5 (amended) — document order, in the absence of nested containers -/

theorem pathLt_append_left : ∀ (p x y : List Nat),
    pathLt x y = true → pathLt (p ++ x) (p ++ y) = true := by
  intro p
  induction p with
  | nil => intro x y h; exact h
  | cons a p' ih =>
    intro x y h
    rw [show (a :: p') ++ x = a :: (p' ++ x) from rfl,
      show (a :: p') ++ y = a :: (p' ++ y) from rfl, pathLt_cons_same]
    exact ih x y h

theorem pathLt_append_cross : ∀ (p q : List Nat), pathLt p q = true →
    startsWithPath p q = false → ∀ (s t : List Nat), pathLt (p ++ s) (q ++ t) = true := by
  intro p
  induction p with
  | nil => intro q h hsw; cases hsw
  | cons a p' ih =>
    intro q h hsw s t
    match q with
    | [] => cases h
    | b :: q' =>
      rw [show pathLt (a :: p') (b :: q') = (decide (a < b) || (a == b && pathLt p' q'))
        from rfl] at h
      rw [show startsWithPath (a :: p') (b :: q') = ((a == b) && startsWithPath p' q')
        from rfl] at hsw
      rw [show (a :: p') ++ s = a :: (p' ++ s) from rfl,
        show (b :: q') ++ t = b :: (q' ++ t) from rfl]
      rcases Bool.or_eq_true .. ▸ h with hab | hcons
      · rw [show pathLt (a :: (p' ++ s)) (b :: (q' ++ t))
            = (decide (a < b) || (a == b && pathLt (p' ++ s) (q' ++ t))) from rfl]
        rw [hab]
        rfl
      · obtain ⟨hab, hlt⟩ := Bool.and_eq_true .. ▸ hcons
        have hab' : a = b := by simpa using hab
        subst hab'
        rw [pathLt_cons_same]
        have hsw' : startsWithPath p' q' = false := by
          cases hpq : startsWithPath p' q'
          · rfl
          · rw [hpq] at hsw
            simp at hsw
        exact ih q' hlt hsw' s t

/-- Gluing lemma: a `flatMap` over a pairwise-`S` list is pairwise-`R` when
each block is and `S`-related blocks are elementwise `R`-related. -/
theorem pairwise_flatMap {α β : Type} {R : β → β → Prop} {S : α → α → Prop}
    (l : List α) (f : α → List β) (hl : l.Pairwise S)
    (hin : ∀ a ∈ l, (f a).Pairwise R)
    (hcross : ∀ a1 a2, S a1 a2 → ∀ b1 ∈ f a1, ∀ b2 ∈ f a2, R b1 b2) :
    (l.flatMap f).Pairwise R := by
  induction l with
  | nil => simp
  | cons a rest ih =>
    rw [List.flatMap_cons, List.pairwise_append]
    obtain ⟨hS, hrest⟩ := List.pairwise_cons.1 hl
    refine ⟨hin a (by simp), ih hrest (fun x hx => hin x (by simp [hx])), ?_⟩
    intro b1 hb1 b2 hb2
    obtain ⟨a2, ha2, hb2'⟩ := List.mem_flatMap.1 hb2
    exact hcross a a2 (hS a2 ha2) b1 hb1 b2 hb2'

theorem anilistContainers_sorted (root : Elem) :
    (anilistContainers root).Pairwise docBefore :=
  List.Pairwise.sublist (List.filter_sublist _) (descendants_sorted root)

theorem childEntriesAux_pairwise : ∀ (cs : List Elem) (i : Nat),
    (childEntriesAux cs i).Pairwise (fun x y => x.1 < y.1) ∧
      (∀ x ∈ childEntriesAux cs i, i ≤ x.1) := by
  intro cs
  induction cs with
  | nil => intro i; simp [childEntriesAux]
  | cons c cs ih =>
    intro i
    rw [show childEntriesAux (c :: cs) i = (i, c) :: childEntriesAux cs (i + 1) from rfl]
    constructor
    · rw [List.pairwise_cons]
      refine ⟨?_, (ih (i + 1)).1⟩
      intro x hx
      have := (ih (i + 1)).2 x hx
      show i < x.1
      omega
    · intro x hx
      rcases List.mem_cons.1 hx with rfl | hx
      · simp
      · have := (ih (i + 1)).2 x hx
        omega

theorem childEntries_pairwise (e : Elem) :
    (childEntries e).Pairwise (fun x y => x.1 < y.1) :=
  (childEntriesAux_pairwise e.children 0).1

theorem strictCandidates_sorted (root : Elem)
    (hnn : (anilistContainers root).Pairwise (fun a b => startsWithPath a.1 b.1 = false)) :
    (strictCandidates root).Pairwise docBefore := by
  unfold strictCandidates
  have hS : (anilistContainers root).Pairwise
      (fun a b => docBefore a b ∧ startsWithPath a.1 b.1 = false) :=
    (anilistContainers_sorted root).and hnn
  refine pairwise_flatMap _ _ hS ?_ ?_
  · intro pe _
    refine pairwise_flatMap _ _
      (List.Pairwise.sublist (List.filter_sublist _) (childEntries_pairwise pe.2)) ?_ ?_
    · intro ic _
      rw [List.pairwise_map]
      refine List.Pairwise.imp ?_
        (List.Pairwise.sublist (List.filter_sublist _) (childEntries_pairwise ic.2))
      intro jc1 jc2 hj
      show pathLt (pe.1 ++ [ic.1, jc1.1]) (pe.1 ++ [ic.1, jc2.1]) = true
      refine pathLt_append_left _ _ _ ?_
      rw [show ([ic.1, jc1.1] : List Nat) = ic.1 :: [jc1.1] from rfl,
        show ([ic.1, jc2.1] : List Nat) = ic.1 :: [jc2.1] from rfl, pathLt_cons_same]
      exact pathLt_cons_of_lt hj [] []
    · intro ic1 ic2 hi b1 hb1 b2 hb2
      obtain ⟨jc1, -, rfl⟩ := List.mem_map.1 hb1
      obtain ⟨jc2, -, rfl⟩ := List.mem_map.1 hb2
      show pathLt (pe.1 ++ [ic1.1, jc1.1]) (pe.1 ++ [ic2.1, jc2.1]) = true
      exact pathLt_append_left _ _ _ (pathLt_cons_of_lt hi _ _)
  · intro a1 a2 hS12 b1 hb1 b2 hb2
    obtain ⟨hlt, hsw⟩ := hS12
    obtain ⟨ic1, -, hb1'⟩ := List.mem_flatMap.1 hb1
    obtain ⟨jc1, -, rfl⟩ := List.mem_map.1 hb1'
    obtain ⟨ic2, -, hb2'⟩ := List.mem_flatMap.1 hb2
    obtain ⟨jc2, -, rfl⟩ := List.mem_map.1 hb2'
    show pathLt (a1.1 ++ [ic1.1, jc1.1]) (a2.1 ++ [ic2.1, jc2.1]) = true
    exact pathLt_append_cross a1.1 a2.1 hlt hsw _ _

theorem relaxedCandidates_sorted (root : Elem)
    (hnn : (anilistContainers root).Pairwise (fun a b => startsWithPath a.1 b.1 = false)) :
    (relaxedCandidates root).Pairwise docBefore := by
  unfold relaxedCandidates
  have hS : (anilistContainers root).Pairwise
      (fun a b => docBefore a b ∧ startsWithPath a.1 b.1 = false) :=
    (anilistContainers_sorted root).and hnn
  refine pairwise_flatMap _ _ hS ?_ ?_
  · intro pe _
    rw [List.pairwise_map]
    refine List.Pairwise.imp ?_
      (List.Pairwise.sublist (List.filter_sublist _) (descendants_sorted pe.2))
    intro qe1 qe2 hq
    show pathLt (pe.1 ++ qe1.1) (pe.1 ++ qe2.1) = true
    exact pathLt_append_left _ _ _ hq
  · intro a1 a2 hS12 b1 hb1 b2 hb2
    obtain ⟨hlt, hsw⟩ := hS12
    obtain ⟨qe1, -, rfl⟩ := List.mem_map.1 hb1
    obtain ⟨qe2, -, rfl⟩ := List.mem_map.1 hb2
    show pathLt (a1.1 ++ qe1.1) (a2.1 ++ qe2.1) = true
    exact pathLt_append_cross a1.1 a2.1 hlt hsw _ _

theorem svgImages_sorted (root : Elem) : (svgImages root).Pairwise docBefore :=
  List.Pairwise.sublist (List.filter_sublist _) (descendants_sorted root)

theorem candidatesTier12_sorted (root : Elem)
    (hnn : (anilistContainers root).Pairwise (fun a b => startsWithPath a.1 b.1 = false)) :
    (candidatesTier12 root).Pairwise docBefore := by
  unfold candidatesTier12
  by_cases hs : (strictCandidates root).isEmpty
  · rw [if_pos hs]
    exact relaxedCandidates_sorted root hnn
  · rw [if_neg hs]
    exact strictCandidates_sorted root hnn

/-- Which loop produced a successful extraction result. -/
theorem extract_ok_cases (root : Elem) (m : Option Int)
    (us : List (List Nat × String)) (ws : List String)
    (h : extract_uris_data root m = (.ok us, ws)) :
    (∃ ws1 flag,
      procLoop getSrcAttr warnMsg12 m (candidatesTier12 root) [] [] = (us, ws1, flag)) ∨
    (∃ ws1 ws2 f2,
      procLoop getSrcAttr warnMsg12 m (candidatesTier12 root) [] [] = ([], ws1, false) ∧
      procLoop getHrefAttr warnMsgSvg m (svgImages root) [] ws1 = (us, ws2, f2)) := by
  rcases hp : procLoop getSrcAttr warnMsg12 m (candidatesTier12 root) [] []
    with ⟨us1, ws1, flag⟩
  cases flag with
  | true =>
    rw [extract_eq_early root m us1 ws1 hp] at h
    have : us1 = us := by
      have := congrArg Prod.fst h
      simpa using this
    subst this
    exact Or.inl ⟨ws1, true, rfl⟩
  | false =>
    by_cases hne : us1 = []
    · subst hne
      rw [extract_eq_fallback root m ws1 hp] at h
      rcases hq : procLoop getHrefAttr warnMsgSvg m (svgImages root) [] ws1
        with ⟨us2, ws2, f2⟩
      rw [hq] at h
      replace h : (if us2.isEmpty
          then ((Except.error noDataUrisMsg : Except String (List (List Nat × String))), ws2)
          else (.ok us2, ws2)) = (.ok us, ws) := h
      by_cases hE : us2.isEmpty
      · rw [if_pos hE] at h
        cases h
      · rw [if_neg hE] at h
        have : us2 = us := by
          have := congrArg Prod.fst h
          simpa using this
        subst this
        exact Or.inr ⟨ws1, ws2, f2, rfl, hq⟩
    · rw [extract_eq_main root m us1 ws1 hp hne] at h
      have : us1 = us := by
        have := congrArg Prod.fst h
        simpa using this
      subst this
      exact Or.inl ⟨ws1, false, rfl⟩

/-- C5 (amended): when no anilist container is nested inside another —
the intended document shape — the URIs returned by a successful
`extract_uris_data` are in strictly increasing document order of the
elements they were read from, whichever tier produced them.  (Without that
hypothesis the order is grouped by container; see the counterexample.) -/
theorem doc_order_amended (root : Elem) (m : Option Int)
    (hnn : (anilistContainers root).Pairwise (fun a b => startsWithPath a.1 b.1 = false)) :
    ∀ us ws, extract_uris_data root m = (.ok us, ws) →
      (us.map Prod.fst).Pairwise (fun p q => pathLt p q = true) := by
  intro us ws h
  rcases extract_ok_cases root m us ws h with ⟨ws1, flag, hp⟩ | ⟨ws1, ws2, f2, hp, hq⟩
  · have hsub := procLoop_paths getSrcAttr warnMsg12 m (candidatesTier12 root) [] []
    rw [hp] at hsub
    have hsorted : ((candidatesTier12 root).map Prod.fst).Pairwise
        (fun p q => pathLt p q = true) := by
      rw [List.pairwise_map]
      exact candidatesTier12_sorted root hnn
    exact List.Pairwise.sublist (by simpa using hsub) hsorted
  · have hsub := procLoop_paths getHrefAttr warnMsgSvg m (svgImages root) [] ws1
    rw [hq] at hsub
    have hsorted : ((svgImages root).map Prod.fst).Pairwise
        (fun p q => pathLt p q = true) := by
      rw [List.pairwise_map]
      exact svgImages_sorted root
    exact List.Pairwise.sublist (by simpa using hsub) hsorted

/-- Two sibling (non-nested) anilist containers. -/
def docTwoAni : Elem :=
  .mk svgTag []
    [.mk divTag [("class", "anilist")]
      [.mk divTag [("class", "characters")] [imgOf uriA]],
     .mk divTag [("class", "anilist")]
      [.mk divTag [("class", "characters")] [imgOf uriB]]]

theorem doc_order_amended_witness :
    (anilistContainers docTwoAni).Pairwise (fun a b => startsWithPath a.1 b.1 = false) ∧
    (([([0, 0, 0], uriA), ([1, 0, 0], uriB)].map Prod.fst).Pairwise
      (fun p q => pathLt p q = true)) :=
  ⟨by decide, doc_order_amended docTwoAni none (by decide)
    [([0, 0, 0], uriA), ([1, 0, 0], uriB)] [] (by decide)⟩

theorem extract_cap_stops_witness :
    ((0 : Int) < 2) ∧
    ((∀ us ws, extract_uris_data docTwoAni (some 2) = (.ok us, ws) →
        us.length ≤ (2 : Int).toNat) ∧
      (∃ n, n ≤ (candidatesTier12 docTwoAni).length ∧
        (procLoop getSrcAttr warnMsg12 (some 2) (candidatesTier12 docTwoAni) [] []).1 =
          (procLoop getSrcAttr warnMsg12 none
            (List.take n (candidatesTier12 docTwoAni)) [] []).1 ∧
        (procLoop getSrcAttr warnMsg12 (some 2) (candidatesTier12 docTwoAni) [] []).2.1 =
          (procLoop getSrcAttr warnMsg12 none
            (List.take n (candidatesTier12 docTwoAni)) [] []).2.1 ∧
        (n < (candidatesTier12 docTwoAni).length →
          (procLoop getSrcAttr warnMsg12 (some 2) (candidatesTier12 docTwoAni) [] []).1.length
            = (2 : Int).toNat)) ∧
      (∀ ws0, ∃ n, n ≤ (svgImages docTwoAni).length ∧
        (procLoop getHrefAttr warnMsgSvg (some 2) (svgImages docTwoAni) [] ws0).1 =
          (procLoop getHrefAttr warnMsgSvg none
            (List.take n (svgImages docTwoAni)) [] ws0).1 ∧
        (procLoop getHrefAttr warnMsgSvg (some 2) (svgImages docTwoAni) [] ws0).2.1 =
          (procLoop getHrefAttr warnMsgSvg none
            (List.take n (svgImages docTwoAni)) [] ws0).2.1 ∧
        (n < (svgImages docTwoAni).length →
          (procLoop getHrefAttr warnMsgSvg (some 2) (svgImages docTwoAni) [] ws0).1.length
            = (2 : Int).toNat))) :=
  ⟨by decide, extract_cap_stops docTwoAni 2 (by decide)⟩

theorem tier_short_circuit_witness :
    (∃ pe ∈ strictCandidates docTwoAni, is_data_uri (getSrcAttr pe.2) = true) ∧
    extract_uris_data docTwoAni none =
      (.ok (procLoop getSrcAttr warnMsg12 none (strictCandidates docTwoAni) [] []).1,
       (procLoop getSrcAttr warnMsg12 none (strictCandidates docTwoAni) [] []).2.1) :=
  ⟨by decide, (tier_short_circuit docTwoAni none).2.1 (by decide)⟩

theorem rejected_candidate_warned_witness :
    acceptOf getSrcAttr ([0], imgOf "http:bad") = none ∧
    warnOf getSrcAttr warnMsg12 ([0], imgOf "http:bad") = some (warnMsg12 "http:bad") :=
  (rejected_candidate_warned docTwoAni none).2.2.1 getSrcAttr warnMsg12
    ([0], imgOf "http:bad") "http:bad" (by decide) (by decide) (by decide)
